import Mathlib

/-!
Verification of the heimdall-rs bytecode-analysis engine against its
natural-language specification.

The repository's `src/` tree contains only the CLI glue (`heimdall.rs` with
`main` and the subcommand dispatch, and `trace/mod.rs` with the `trace`
subcommand).  Those two files are embedded faithfully below (sections on the
dispatch model and the trace model).  The core analysis pipeline that the
specification describes — instruction decoder, symbolic stack machine,
control-flow-graph builder, decompiler and calldata/argument decoder — lives
in crates that are not part of `src/`; every definition for those components
is therefore modelled from the specification, and each such definition says
so in its doc comment.

Machine words are 256-bit and are represented as `Nat` with explicit
`% 2 ^ 256` where overflow matters.  Byte strings are `List Nat` with each
byte `< 256`.
-/

/-! ### Bytes and words -/

/-- Modelled from the spec: big-endian interpretation of a byte string as an
unsigned machine word (used for push operands and 32-byte argument slots). -/
def beBytesToNat (bs : List Nat) : Nat :=
  bs.foldl (fun acc b => acc * 256 + b) 0

/-- Modelled from the spec: the 256-bit machine-word modulus. -/
def wordModulus : Nat := 2 ^ 256

/-! ### Instruction decoder (spec §4.1)

Modelled from the spec: the instruction decoder of the core pipeline is not
in `src/`; it is reconstructed here from §4.1: it walks the byte string once,
reading one opcode byte at each position; push-class opcodes consume the next
N bytes as the operand, clamped to the remaining length when truncated. -/

/-- Modelled from the spec (§3 data model): an `Instruction` is
`{program_counter, opcode, operand}` where the operand is an optional
fixed-width byte string. -/
structure Instruction where
  program_counter : Nat
  opcode : Nat
  operand : Option (List Nat)
deriving DecidableEq

instance : Inhabited Instruction := ⟨⟨0, 0, none⟩⟩

/-- Number of operand bytes declared by a push-class opcode
(`0x60`–`0x7f` declare 1–32 bytes); every other opcode declares none. -/
def pushBytes (op : Nat) : Nat :=
  if 0x60 ≤ op ∧ op ≤ 0x7f then op - 0x5f else 0

/-- Whether an opcode is push-class (carries an immediate operand). -/
def isPushOp (op : Nat) : Bool :=
  decide (0x60 ≤ op ∧ op ≤ 0x7f)

/-- Modelled from the spec (§4.1): one decoding step per opcode byte, with a
structural fuel so the function is kernel-computable.  The fuel is always
instantiated with the length of the byte string, which is sufficient
(`decodeAux_fuel_irrelevant`). -/
def decodeAux : Nat → Nat → List Nat → List Instruction
  | 0, _, _ => []
  | _ + 1, _, [] => []
  | fuel + 1, pc, b :: rest =>
    let n := pushBytes b
    let i : Instruction :=
      ⟨pc, b, if isPushOp b then some (rest.take n) else none⟩
    i :: decodeAux fuel (pc + 1 + (rest.take n).length) (rest.drop n)

/-- Modelled from the spec (§4.1): decode a byte string starting at a given
program counter. -/
def decodeFrom (pc : Nat) (bs : List Nat) : List Instruction :=
  decodeAux bs.length pc bs

/-- Any fuel at least the length of the byte string yields the same decoding. -/
theorem decodeAux_fuel_irrelevant :
    ∀ (f1 f2 pc : Nat) (bs : List Nat), bs.length ≤ f1 → bs.length ≤ f2 →
      decodeAux f1 pc bs = decodeAux f2 pc bs := by
  intro f1
  induction f1 with
  | zero =>
    intro f2 pc bs h1 _
    have hbs : bs = [] := List.eq_nil_of_length_eq_zero (Nat.le_zero.mp h1)
    subst hbs
    cases f2 <;> rfl
  | succ f ih =>
    intro f2 pc bs h1 h2
    cases bs with
    | nil => cases f2 <;> rfl
    | cons b rest =>
      cases f2 with
      | zero => simp at h2
      | succ f2' =>
        simp only [decodeAux]
        refine congrArg _ ?_
        have hdrop : (rest.drop (pushBytes b)).length ≤ rest.length := by
          simp [List.length_drop]
        have hr1 : rest.length ≤ f := by simpa using h1
        have hr2 : rest.length ≤ f2' := by simpa using h2
        exact ih f2' _ _ (le_trans hdrop hr1) (le_trans hdrop hr2)

/-- Unfolding equation for `decodeFrom` on a non-empty byte string. -/
theorem decodeFrom_cons (pc b : Nat) (rest : List Nat) :
    decodeFrom pc (b :: rest) =
      (⟨pc, b, if isPushOp b then some (rest.take (pushBytes b)) else none⟩ :
          Instruction) ::
        decodeFrom (pc + 1 + (rest.take (pushBytes b)).length)
          (rest.drop (pushBytes b)) := by
  show decodeAux (rest.length + 1) pc (b :: rest) = _
  simp only [decodeAux]
  refine congrArg _ ?_
  exact decodeAux_fuel_irrelevant _ _ _ _
    (by simp [List.length_drop]) (le_refl _)

/-- `decodeFrom` on the empty byte string. -/
theorem decodeFrom_nil (pc : Nat) : decodeFrom pc [] = [] := rfl

/-- Modelled from the spec (§4.1): the set of valid jump-destination program
counters is the set of positions holding the jump-destination marker opcode
`0x5b`, taken over the decoded instruction sequence (a `0x5b` byte inside a
push operand is not an instruction and is excluded). -/
def jumpdestsOf (instrs : List Instruction) : List Nat :=
  instrs.filterMap fun i =>
    if i.opcode = 0x5b then some i.program_counter else none

/-- A byte string that encodes exactly one instruction: an opcode byte
followed by exactly as many operand bytes as the opcode declares. -/
def validSingleInstruction (bs : List Nat) : Prop :=
  ∃ op operand, bs = op :: operand ∧ operand.length = pushBytes op

/-- **C6** The instruction decoder is a pure total function: every valid
single-instruction byte string decodes to exactly one `Instruction` whose
program counter is 0, and the empty input decodes to the empty instruction
sequence. -/
theorem decoder_single_instruction :
    (∀ bs : List Nat, validSingleInstruction bs →
      (decodeFrom 0 bs).length = 1 ∧
        ∀ i ∈ decodeFrom 0 bs, i.program_counter = 0) ∧
      decodeFrom 0 [] = [] := by
  refine ⟨?_, rfl⟩
  rintro bs ⟨op, operand, rfl, hlen⟩
  rw [decodeFrom_cons]
  have htake : operand.take (pushBytes op) = operand := by
    rw [← hlen]; simp
  have hdrop : operand.drop (pushBytes op) = [] := by
    rw [← hlen]; simp
  rw [htake, hdrop, decodeFrom_nil]
  constructor
  · rfl
  · intro i hi
    simp only [List.mem_singleton] at hi
    rw [hi]

/-- Witness for C6 at the concrete single-instruction input
`PUSH1 0xaa` (`[0x60, 0xaa]`). -/
theorem decoder_single_instruction_witness :
    (decodeFrom 0 [0x60, 0xaa]).length = 1 ∧
      ∀ i ∈ decodeFrom 0 [0x60, 0xaa], i.program_counter = 0 :=
  decoder_single_instruction.1 [0x60, 0xaa] ⟨0x60, [0xaa], rfl, rfl⟩

/-! ### Decoder position lemmas -/

/-- A push opcode declares at least one operand byte. -/
theorem pushBytes_pos {op : Nat} (h : isPushOp op = true) : 1 ≤ pushBytes op := by
  simp only [isPushOp, decide_eq_true_eq] at h
  simp only [pushBytes, if_pos h]
  omega

/-- Shape of every decoded instruction: its program counter lies at or after
the starting counter; a push-class instruction carries an operand clamped to
the bytes remaining in the input; a non-push instruction carries none. -/
theorem decodeAux_shape :
    ∀ (f pc : Nat) (l : List Nat), l.length ≤ f →
      ∀ i ∈ decodeAux f pc l,
        pc ≤ i.program_counter ∧
          (isPushOp i.opcode = true →
            ∃ o, i.operand = some o ∧
              o.length =
                min (pushBytes i.opcode)
                  (pc + l.length - (i.program_counter + 1))) ∧
          (isPushOp i.opcode = false → i.operand = none) := by
  intro f
  induction f with
  | zero =>
    intro pc l _ i hi
    simp [decodeAux] at hi
  | succ f ih =>
    intro pc l hlen i hi
    cases l with
    | nil => simp [decodeAux] at hi
    | cons b rest =>
      simp only [decodeAux, List.mem_cons] at hi
      rcases hi with hi | hi
      · subst hi
        refine ⟨le_refl _, ?_, ?_⟩
        · intro hp
          refine ⟨rest.take (pushBytes b), ?_, ?_⟩
          · simp [hp]
          · simp only [List.length_take, List.length_cons]
            omega
        · intro hp
          simp [hp]
      · have hrest : (rest.drop (pushBytes b)).length ≤ f := by
          have : rest.length ≤ f := by simpa using hlen
          simp only [List.length_drop]
          omega
        have h := ih _ _ hrest i hi
        refine ⟨?_, ?_, h.2.2⟩
        · have := h.1
          omega
        · intro hp
          obtain ⟨o, ho, holen⟩ := h.2.1 hp
          refine ⟨o, ho, ?_⟩
          rw [holen]
          have harith :
              pc + 1 + (rest.take (pushBytes b)).length +
                  (rest.drop (pushBytes b)).length =
                pc + (b :: rest).length := by
            simp only [List.length_take, List.length_drop, List.length_cons]
            omega
          rw [harith]

/-- The decoded program counters are strictly increasing in sequence order. -/
theorem decodeAux_pc_pairwise :
    ∀ (f pc : Nat) (l : List Nat), l.length ≤ f →
      (decodeAux f pc l).Pairwise
        (fun a b => a.program_counter < b.program_counter) := by
  intro f
  induction f with
  | zero => intro pc l _; simp [decodeAux]
  | succ f ih =>
    intro pc l hlen
    cases l with
    | nil => simp [decodeAux]
    | cons b rest =>
      simp only [decodeAux]
      have hrest : (rest.drop (pushBytes b)).length ≤ f := by
        have : rest.length ≤ f := by simpa using hlen
        simp only [List.length_drop]
        omega
      refine List.Pairwise.cons ?_ (ih _ _ hrest)
      intro j hj
      have := (decodeAux_shape f _ _ hrest j hj).1
      show pc < j.program_counter
      omega

/-! ### Disassembler (spec §6, §4.1)

Modelled from the spec: `disassemble` is not in `src/`; per §6 it never
fails, and malformed bytes degrade to best-effort output with inline markers
for undecodable ranges.  The listing is the structured in-memory tree; text
layout is an external formatter's concern (§6). -/

/-- Modelled from the spec: one line of the assembly listing; `truncated` is
the inline marker set on an instruction whose declared operand overruns the
input. -/
structure AsmLine where
  pc : Nat
  opcode : Nat
  operand : Option (List Nat)
  truncated : Bool
deriving DecidableEq

/-- Modelled from the spec: the assembly listing produced by `disassemble`. -/
structure AssemblyListing where
  lines : List AsmLine
deriving DecidableEq

/-- Modelled from the spec (§6): `disassemble` as a total function; it marks
an instruction as truncated exactly when its operand was clamped below the
declared push width. -/
def disassemble (bs : List Nat) : AssemblyListing :=
  ⟨(decodeFrom 0 bs).map fun i =>
    ⟨i.program_counter, i.opcode, i.operand,
      decide ((i.operand.getD []).length < pushBytes i.opcode)⟩⟩

/-! ### Symbolic expressions (spec §3, §4.2)

Modelled from the spec: the symbolic stack machine is not in `src/`.  A
`SymbolicExpression` is a tagged tree of constants, variables (tagged with
their origin) and operation nodes over an ordered sequence of operands.  The
`widened` origin is the opaque variable that join-point widening produces
(§4.3). -/

/-- Modelled from the spec (§3): the origin of a symbolic variable. -/
inductive VarOrigin
  | calldata (off : Nat)
  | storage (slot : Nat)
  | memory (off : Nat)
  | ret (callSite : Nat)
  | widened
deriving DecidableEq

/-- Modelled from the spec (§3): a symbolic expression — a constant 256-bit
word, a variable with an origin, or an operation node (tagged by the opcode
that built it) over an ordered operand sequence. -/
inductive Expr
  | const (w : Nat)
  | svar (o : VarOrigin)
  | oper (op : Nat) (args : List Expr)

mutual

/-- Structural boolean equality on expressions (the nested operand list
prevents a derived instance). -/
def Expr.beq : Expr → Expr → Bool
  | Expr.const a, Expr.const b => decide (a = b)
  | Expr.svar a, Expr.svar b => decide (a = b)
  | Expr.oper o1 a1, Expr.oper o2 a2 => decide (o1 = o2) && Expr.beqList a1 a2

  | _, _ => false

/-- Structural boolean equality on operand lists. -/
def Expr.beqList : List Expr → List Expr → Bool
  | [], [] => true
  | a :: as, b :: bs => Expr.beq a b && Expr.beqList as bs
  | _, _ => false

end

mutual

theorem Expr.eq_of_beq : ∀ {a b : Expr}, Expr.beq a b = true → a = b
  | Expr.const _, Expr.const _, h => by
    simp only [Expr.beq, decide_eq_true_eq] at h; rw [h]
  | Expr.svar _, Expr.svar _, h => by
    simp only [Expr.beq, decide_eq_true_eq] at h; rw [h]
  | Expr.oper _ _, Expr.oper _ _, h => by
    simp only [Expr.beq, Bool.and_eq_true, decide_eq_true_eq] at h
    rw [h.1, Expr.eqList_of_beq h.2]
  | Expr.const _, Expr.svar _, h => by simp [Expr.beq] at h
  | Expr.const _, Expr.oper _ _, h => by simp [Expr.beq] at h
  | Expr.svar _, Expr.const _, h => by simp [Expr.beq] at h
  | Expr.svar _, Expr.oper _ _, h => by simp [Expr.beq] at h
  | Expr.oper _ _, Expr.const _, h => by simp [Expr.beq] at h
  | Expr.oper _ _, Expr.svar _, h => by simp [Expr.beq] at h

theorem Expr.eqList_of_beq : ∀ {as bs : List Expr},
    Expr.beqList as bs = true → as = bs
  | [], [], _ => rfl
  | a :: as, b :: bs, h => by
    simp only [Expr.beqList, Bool.and_eq_true] at h
    rw [Expr.eq_of_beq h.1, Expr.eqList_of_beq h.2]
  | [], _ :: _, h => by simp [Expr.beqList] at h
  | _ :: _, [], h => by simp [Expr.beqList] at h

end

mutual

theorem Expr.beq_refl : ∀ (a : Expr), Expr.beq a a = true
  | Expr.const _ => by simp [Expr.beq]
  | Expr.svar _ => by simp [Expr.beq]
  | Expr.oper _ as => by simp [Expr.beq, Expr.beqList_refl as]

theorem Expr.beqList_refl : ∀ (as : List Expr), Expr.beqList as as = true
  | [] => rfl
  | a :: as => by simp [Expr.beqList, Expr.beq_refl a, Expr.beqList_refl as]

end

instance : DecidableEq Expr := fun a b =>
  decidable_of_iff (Expr.beq a b = true)
    ⟨Expr.eq_of_beq, fun h => h ▸ Expr.beq_refl a⟩

/-- The opaque variable produced by join-point widening (§4.3). -/
def Expr.widenedVar : Expr := Expr.svar VarOrigin.widened

/-- Modelled from the spec (§4.3): widening of one stack slot — equal
expressions are kept, unequal expressions are widened to the opaque
variable. -/
def widenExpr (a b : Expr) : Expr :=
  if a = b then a else Expr.widenedVar

/-! ### Symbolic stacks and join-point merging (spec §3, §4.3) -/

/-- Modelled from the spec (§3, §4.3): an abstract stack state — either a
fully unknown stack (the result of widening stacks of unequal depth, or of
executing from an unknown state) or an ordered sequence of symbolic
expressions, topmost first. -/
inductive SStack
  | unknown
  | stack (s : List Expr)
deriving DecidableEq

/-- Modelled from the spec (§3): the maximum symbolic-stack depth; overflow
is a detectable failure, not undefined behavior. -/
def stackCap : Nat := 1024

/-- Modelled from the spec (§4.3): the join-point merge — equal-depth stacks
merge expression-wise by widening unequal expressions to an opaque variable;
any other combination widens to the fully unknown stack. -/
def mergeStack : SStack → SStack → SStack
  | SStack.unknown, _ => SStack.unknown
  | SStack.stack _, SStack.unknown => SStack.unknown
  | SStack.stack a, SStack.stack b =>
    if a.length = b.length then SStack.stack (List.zipWith widenExpr a b)
    else SStack.unknown

/-- Depth of an abstract stack (`unknown` counts as 0). -/
def sLen : SStack → Nat
  | SStack.unknown => 0
  | SStack.stack s => s.length

/-- Number of slots that are not yet the opaque widened variable. -/
def countNonWidened (s : List Expr) : Nat :=
  (s.filter fun e => decide (e ≠ Expr.widenedVar)).length

/-- Widening potential of an abstract stack: it strictly decreases every
time a join-point merge changes the stored state, which bounds the number of
re-widenings per program counter (§4.3). -/
def pot : SStack → Nat
  | SStack.unknown => 0
  | SStack.stack s => 1 + countNonWidened s

/-- Each slot of a widened merge is either the original slot or the opaque
variable; a changed slot was not already opaque. -/
theorem widenExpr_cases (a b : Expr) :
    widenExpr a b = a ∨ (a ≠ Expr.widenedVar ∧ widenExpr a b = Expr.widenedVar) := by
  by_cases h : a = b
  · left; simp [widenExpr, h]
  · by_cases hw : a = Expr.widenedVar
    · left; simp [widenExpr, h, hw]
    · right; exact ⟨hw, by simp [widenExpr, h]⟩

/-- Slot-wise widening never increases, and strictly decreases when it
changes the list. -/
theorem countNonWidened_zipWith :
    ∀ (a b : List Expr),
      countNonWidened (List.zipWith widenExpr a b) ≤ countNonWidened a ∧
        (List.zipWith widenExpr a b ≠ a → a.length = b.length →
          countNonWidened (List.zipWith widenExpr a b) < countNonWidened a) := by
  intro a
  induction a with
  | nil =>
    intro b
    constructor
    · simp [countNonWidened]
    · intro h _
      exact absurd (by simp) h
  | cons x xs ih =>
    intro b
    cases b with
    | nil =>
      constructor
      · simp [countNonWidened]
      · intro _ hlen
        simp at hlen
    | cons y ys =>
      rcases ih ys with ⟨hle, hlt⟩
      rcases widenExpr_cases x y with hx | ⟨hnw, hx⟩
      · constructor
        · simp only [List.zipWith_cons_cons, countNonWidened, List.filter, hx]
          cases hdx : decide (x ≠ Expr.widenedVar) <;>
            simpa [countNonWidened, hdx] using hle
        · intro hne hlen
          have htail : List.zipWith widenExpr xs ys ≠ xs := by
            intro he
            exact hne (by rw [List.zipWith_cons_cons, hx, he])
          have hlen' : xs.length = ys.length := by simpa using hlen
          have := hlt htail hlen'
          simp only [List.zipWith_cons_cons, countNonWidened, List.filter, hx]
          cases hdx : decide (x ≠ Expr.widenedVar) <;>
            simpa [countNonWidened, hdx] using this
      · constructor
        · simp only [List.zipWith_cons_cons, countNonWidened, List.filter, hx]
          have hdx : decide (x ≠ Expr.widenedVar) = true := by
            simpa using hnw
          simp only [decide_not, Expr.widenedVar] at *
          simp only [hdx]
          cases hdw : decide (¬Expr.widenedVar = Expr.widenedVar)
          · simpa [countNonWidened, decide_not] using Nat.le_succ_of_le hle
          · simp at hdw
        · intro _ _
          have hdx : decide (x ≠ Expr.widenedVar) = true := by simpa using hnw
          have hdw : (decide (Expr.widenedVar ≠ Expr.widenedVar)) = false := by
            simp
          simp only [List.zipWith_cons_cons, countNonWidened, List.filter, hx,
            hdw, hdx]
          exact Nat.lt_succ_of_le (by simpa [countNonWidened] using hle)

/-- A join-point merge that changes the stored state strictly decreases its
widening potential. -/
theorem pot_mergeStack_lt (s0 s : SStack) (h : mergeStack s0 s ≠ s0) :
    pot (mergeStack s0 s) < pot s0 := by
  cases s0 with
  | unknown => exact absurd rfl h
  | stack a =>
    cases s with
    | unknown =>
      simp [mergeStack, pot, countNonWidened]
    | stack b =>
      by_cases hlen : a.length = b.length
      · simp only [mergeStack, if_pos hlen] at h ⊢
        have hne : List.zipWith widenExpr a b ≠ a := by
          intro he; exact h (by rw [he])
        have := (countNonWidened_zipWith a b).2 hne hlen
        simp only [pot]
        omega
      · simp [mergeStack, if_neg hlen, pot]

/-- Merging never increases the depth of a stacked state. -/
theorem sLen_mergeStack (s0 s : SStack) : sLen (mergeStack s0 s) ≤ sLen s0 := by
  cases s0 with
  | unknown => simp [mergeStack, sLen]
  | stack a =>
    cases s with
    | unknown => simp [mergeStack, sLen]
    | stack b =>
      by_cases hlen : a.length = b.length
      · simp [mergeStack, if_pos hlen, sLen]
      · simp [mergeStack, if_neg hlen, sLen]

/-- The potential of a stack is bounded by one more than its depth. -/
theorem pot_le (s : SStack) : pot s ≤ 1 + sLen s := by
  cases s with
  | unknown => simp [pot, sLen]
  | stack l =>
    simp only [pot, sLen, countNonWidened]
    have := List.length_filter_le (fun e => decide (e ≠ Expr.widenedVar)) l
    omega

/-! ### Opcode classification and stack effects (spec §4.2)

Modelled from the spec: the symbolic stack machine pops the number of
operands an opcode's stack-effect declares and pushes results per its
stack-effect.  The table below is the standard stack-effect table of the
target instruction set; opcodes absent from every class are invalid and act
as block terminators (§4.1/§4.2: malformed bytecode is accepted, not
rejected). -/

/-- Whether an opcode is duplicate-class (`DUP1`–`DUP16`). -/
def isDupOp (op : Nat) : Bool := decide (0x80 ≤ op ∧ op ≤ 0x8f)

/-- Whether an opcode is swap-class (`SWAP1`–`SWAP16`). -/
def isSwapOp (op : Nat) : Bool := decide (0x90 ≤ op ∧ op ≤ 0x9f)

/-- Modelled from the spec (§4.2): declared stack effect (pops, pushes) of
the plain (non-push, non-dup, non-swap, non-terminator) opcodes. -/
def stackArity (op : Nat) : Option (Nat × Nat) :=
  if 0x01 ≤ op ∧ op ≤ 0x07 then some (2, 1)
  else if op = 0x08 ∨ op = 0x09 then some (3, 1)
  else if op = 0x0a ∨ op = 0x0b then some (2, 1)
  else if 0x10 ≤ op ∧ op ≤ 0x14 then some (2, 1)
  else if op = 0x15 then some (1, 1)
  else if 0x16 ≤ op ∧ op ≤ 0x18 then some (2, 1)
  else if op = 0x19 then some (1, 1)
  else if 0x1a ≤ op ∧ op ≤ 0x1d then some (2, 1)
  else if op = 0x20 then some (2, 1)
  else if op = 0x30 then some (0, 1)
  else if op = 0x31 then some (1, 1)
  else if 0x32 ≤ op ∧ op ≤ 0x34 then some (0, 1)
  else if op = 0x35 then some (1, 1)
  else if op = 0x36 then some (0, 1)
  else if op = 0x37 then some (3, 0)
  else if op = 0x38 then some (0, 1)
  else if op = 0x39 then some (3, 0)
  else if op = 0x3a then some (0, 1)
  else if op = 0x3b then some (1, 1)
  else if op = 0x3c then some (4, 0)
  else if op = 0x3d then some (0, 1)
  else if op = 0x3e then some (3, 0)
  else if op = 0x3f then some (1, 1)
  else if op = 0x40 then some (1, 1)
  else if 0x41 ≤ op ∧ op ≤ 0x48 then some (0, 1)
  else if op = 0x50 then some (1, 0)
  else if op = 0x51 then some (1, 1)
  else if op = 0x52 ∨ op = 0x53 then some (2, 0)
  else if op = 0x54 then some (1, 1)
  else if op = 0x55 then some (2, 0)
  else if 0x58 ≤ op ∧ op ≤ 0x5a then some (0, 1)
  else if op = 0x5b then some (0, 0)
  else if 0xa0 ≤ op ∧ op ≤ 0xa4 then some (op - 0xa0 + 2, 0)
  else if op = 0xf0 then some (3, 1)
  else if op = 0xf1 ∨ op = 0xf2 then some (7, 1)
  else if op = 0xf4 then some (6, 1)
  else if op = 0xf5 then some (4, 1)
  else if op = 0xfa then some (6, 1)
  else none

/-- Modelled from the spec (§3, §4.1): a block terminator is any opcode that
is neither push-, dup-, swap-class nor a plain stack-effect opcode: the
jumps `0x56`/`0x57`, halting `0x00`/`0xf3`/`0xff`, reverting `0xfd`,
`invalid` `0xfe`, and every undefined opcode (treated as invalid). -/
def isTermOp (op : Nat) : Bool :=
  !(isPushOp op || isDupOp op || isSwapOp op || (stackArity op).isSome)

/-- Whether an opcode is call-family (pushes a fresh return-value
placeholder variable, §4.2). -/
def isCallOp (op : Nat) : Bool :=
  decide (op = 0xf0) || decide (op = 0xf1) || decide (op = 0xf2) ||
    decide (op = 0xf4) || decide (op = 0xf5) || decide (op = 0xfa)

/-- Modelled from the spec (§4.2): constant folding of an operation whose
operands are all constants, over 256-bit words. -/
def foldConst (op : Nat) (args : List Nat) : Option Nat :=
  match op, args with
  | 0x01, [a, b] => some ((a + b) % wordModulus)
  | 0x02, [a, b] => some ((a * b) % wordModulus)
  | 0x03, [a, b] => some ((a % wordModulus + (wordModulus - b % wordModulus)) % wordModulus)
  | 0x04, [a, b] => some (if b = 0 then 0 else a / b)
  | 0x06, [a, b] => some (if b = 0 then 0 else a % b)
  | 0x10, [a, b] => some (if a < b then 1 else 0)
  | 0x11, [a, b] => some (if b < a then 1 else 0)
  | 0x14, [a, b] => some (if a = b then 1 else 0)
  | 0x15, [a] => some (if a = 0 then 1 else 0)
  | 0x16, [a, b] => some (Nat.land a b)
  | 0x17, [a, b] => some (Nat.lor a b)
  | 0x18, [a, b] => some (Nat.xor a b)
  | 0x1b, [a, b] => some ((b * 2 ^ a) % wordModulus)
  | 0x1c, [a, b] => some (b / 2 ^ a)
  | _, _ => none

/-- Operand expressions that are all constants, as their word values. -/
def allConsts : List Expr → Option (List Nat)
  | [] => some []
  | Expr.const w :: rest => (allConsts rest).map fun ws => w :: ws
  | _ => none

/-- Modelled from the spec (§4.2): the expression a plain opcode pushes —
call-family opcodes push a fresh return placeholder; loads from a constant
calldata offset, memory offset or storage slot push an origin-tagged
variable (memory and storage knowledge is kept maximally conservative: a
load is an unknown-valued variable, the spec's treat-as-unknown rule);
all-constant operands are constant-folded; anything else builds an
operation node. -/
def buildResult (pc op : Nat) (args : List Expr) : Expr :=
  if isCallOp op then Expr.svar (VarOrigin.ret pc)
  else if op = 0x35 then
    match args with
    | [Expr.const c] => Expr.svar (VarOrigin.calldata c)
    | _ => Expr.oper op args
  else if op = 0x51 then
    match args with
    | [Expr.const c] => Expr.svar (VarOrigin.memory c)
    | _ => Expr.oper op args
  else if op = 0x54 then
    match args with
    | [Expr.const c] => Expr.svar (VarOrigin.storage c)
    | _ => Expr.oper op args
  else
    match allConsts args with
    | some ws =>
      match foldConst op ws with
      | some v => Expr.const v
      | none => Expr.oper op args
    | none => Expr.oper op args

/-- Modelled from the spec (§4.2): symbolic execution of one non-terminator
instruction.  `none` is the block-local decode failure (stack underflow, or
overflow past the bounded depth). -/
def execInstr (i : Instruction) (s : List Expr) : Option (List Expr) :=
  let op := i.opcode
  if isPushOp op then
    if s.length < stackCap then
      some (Expr.const (beBytesToNat (i.operand.getD [])) :: s)
    else none
  else if isDupOp op then
    let n := op - 0x7f
    if n ≤ s.length ∧ s.length < stackCap then
      some (s.getD (n - 1) (Expr.const 0) :: s)
    else none
  else if isSwapOp op then
    let n := op - 0x8f
    match s with
    | x :: rest =>
      if n ≤ rest.length then some (rest.getD (n - 1) x :: rest.set (n - 1) x)
      else none
    | [] => none
  else
    match stackArity op with
    | some (p, q) =>
      if p ≤ s.length then
        let s1 := s.drop p
        if q = 0 then some s1
        else if s1.length < stackCap then
          some (buildResult i.program_counter op (s.take p) :: s1)
        else none
      else none
    | none => some s

/-- Modelled from the spec (§4.2): symbolic execution of an instruction
sequence, failing block-locally on the first underflow/overflow. -/
def execList (s : List Expr) : List Instruction → Option (List Expr)
  | [] => some s
  | i :: rest =>
    match execInstr i s with
    | none => none
    | some s1 => execList s1 rest

/-- One execution step keeps the stack within its bounded depth. -/
theorem execInstr_cap {i : Instruction} {s s1 : List Expr}
    (h : execInstr i s = some s1) (hcap : s.length ≤ stackCap) :
    s1.length ≤ stackCap := by
  unfold execInstr at h
  by_cases hp : isPushOp i.opcode = true
  · simp only [hp, if_true] at h
    by_cases hc : s.length < stackCap
    · simp only [if_pos hc] at h
      cases h
      simpa using hc
    · simp [if_neg hc] at h
  · simp only [hp] at h
    by_cases hd : isDupOp i.opcode = true
    · simp only [hd, if_true, if_false] at h
      by_cases hc : i.opcode - 0x7f ≤ s.length ∧ s.length < stackCap
      · simp only [if_pos hc] at h
        cases h
        simpa using hc.2
      · simp only [if_neg hc] at h
        simp at h
    · simp only [hd] at h
      by_cases hs : isSwapOp i.opcode = true
      · simp only [hs, if_true, if_false] at h
        cases s with
        | nil => simp at h
        | cons x rest =>
          by_cases hn : i.opcode - 0x8f ≤ rest.length
          · simp only [if_pos hn] at h
            cases h
            simpa using hcap
          · simp only [if_neg hn] at h
            simp at h
      · simp only [hs] at h
        cases har : stackArity i.opcode with
        | none =>
          simp only [har] at h
          cases h
          exact hcap
        | some pq =>
          obtain ⟨p, q⟩ := pq
          simp only [har] at h
          by_cases hple : p ≤ s.length
          · simp only [if_pos hple] at h
            by_cases hq : q = 0
            · simp only [if_pos hq] at h
              cases h
              simp only [List.length_drop]
              omega
            · simp only [if_neg hq] at h
              by_cases hc : (s.drop p).length < stackCap
              · simp only [if_pos hc] at h
                cases h
                simpa using hc
              · simp only [if_neg hc] at h
                simp at h
          · simp [if_neg hple] at h

/-- Executing a sequence keeps the stack within its bounded depth. -/
theorem execList_cap :
    ∀ (l : List Instruction) (s s1 : List Expr),
      execList s l = some s1 → s.length ≤ stackCap → s1.length ≤ stackCap := by
  intro l
  induction l with
  | nil =>
    intro s s1 h hcap
    simp only [execList] at h
    cases h
    exact hcap
  | cons i rest ih =>
    intro s s1 h hcap
    simp only [execList] at h
    cases hstep : execInstr i s with
    | none => rw [hstep] at h; simp at h
    | some s2 =>
      rw [hstep] at h
      exact ih s2 s1 h (execInstr_cap hstep hcap)

/-! ### Basic-block partitioning (spec §3, §4.3)

Modelled from the spec: the CFG builder partitions the decoded instruction
sequence into basic blocks; a block starts at a jump destination or program
start and ends at a terminator instruction or bytecode end (§3). -/

/-- Whether an instruction sequence begins with the jump-destination
marker opcode. -/
def startsWithJumpdest : List Instruction → Bool
  | [] => false
  | j :: _ => decide (j.opcode = 0x5b)

/-- Modelled from the spec (§3, §4.3): split the decoded instruction
sequence into basic blocks.  A boundary is placed after every terminator
and before every jump-destination marker. -/
def splitBlocks : List Instruction → List (List Instruction)
  | [] => []
  | i :: rest =>
    match splitBlocks rest with
    | [] => [[i]]
    | b :: bs =>
      if isTermOp i.opcode || startsWithJumpdest b then [i] :: b :: bs
      else (i :: b) :: bs

/-- First program counter of a block (its `start_pc`). -/
def blockStart : List Instruction → Nat
  | [] => 0
  | i :: _ => i.program_counter

/-- Opcode of the first instruction of a block. -/
def blockHeadOpcode : List Instruction → Nat
  | [] => 0
  | i :: _ => i.opcode

/-- The blocks concatenate back to the decoded instruction sequence: the
partition is total and non-overlapping. -/
theorem splitBlocks_flatten : ∀ (l : List Instruction),
    (splitBlocks l).flatten = l := by
  intro l
  induction l with
  | nil => rfl
  | cons i rest ih =>
    simp only [splitBlocks]
    cases hsb : splitBlocks rest with
    | nil =>
      rw [hsb] at ih
      simp at ih
      simp [ih]
    | cons b bs =>
      rw [hsb] at ih
      by_cases hc : (isTermOp i.opcode || startsWithJumpdest b) = true
      · simp only [hc, if_true, List.flatten_cons]
        simp only [List.flatten_cons] at ih
        simp [ih]
      · simp only [Bool.not_eq_true] at hc
        simp only [hc, Bool.false_eq_true, if_false, List.flatten_cons]
        simp only [List.flatten_cons] at ih
        simp [ih]

/-- No block of the partition is empty. -/
theorem splitBlocks_ne_nil : ∀ (l : List Instruction), ∀ b ∈ splitBlocks l, b ≠ [] := by
  intro l
  induction l with
  | nil => intro b hb; simp [splitBlocks] at hb
  | cons i rest ih =>
    intro b hb
    simp only [splitBlocks] at hb
    cases hsb : splitBlocks rest with
    | nil =>
      rw [hsb] at hb
      simp only [List.mem_singleton] at hb
      subst hb
      simp
    | cons b0 bs =>
      rw [hsb] at hb
      by_cases hc : (isTermOp i.opcode || startsWithJumpdest b0) = true
      · simp only [hc, if_true, List.mem_cons] at hb
        rcases hb with rfl | heq | hb
        · simp
        · rw [heq]
          exact ih b0 (by rw [hsb]; exact List.mem_cons_self b0 bs)
        · exact ih b (by rw [hsb]; exact List.mem_cons_of_mem b0 hb)
      · simp only [Bool.not_eq_true] at hc
        simp only [hc, Bool.false_eq_true, if_false, List.mem_cons] at hb
        rcases hb with rfl | hb
        · simp
        · exact ih b (by rw [hsb]; exact List.mem_cons_of_mem b0 hb)

/-- The first block of a non-empty sequence starts with its first
instruction. -/
theorem splitBlocks_cons_head (i : Instruction) (rest : List Instruction) :
    ∃ t bs, splitBlocks (i :: rest) = (i :: t) :: bs := by
  simp only [splitBlocks]
  cases splitBlocks rest with
  | nil => exact ⟨[], [], rfl⟩
  | cons b bs =>
    by_cases hc : (isTermOp i.opcode || startsWithJumpdest b) = true
    · exact ⟨[], b :: bs, by simp [hc]⟩
    · simp only [Bool.not_eq_true] at hc
      exact ⟨b, bs, by simp [hc]⟩

/-- Every jump-destination-marker instruction heads a block of the
partition: the split places a boundary right before each marker. -/
theorem splitBlocks_jumpdest_leads :
    ∀ (l : List Instruction) (j : Instruction), j ∈ l → j.opcode = 0x5b →
      ∃ b ∈ splitBlocks l, ∃ t, b = j :: t := by
  intro l
  induction l with
  | nil => intro j hj; simp at hj
  | cons i rest ih =>
    intro j hj hop
    rcases List.mem_cons.mp hj with rfl | hj
    · obtain ⟨t, bs, heq⟩ := splitBlocks_cons_head j rest
      exact ⟨j :: t, by rw [heq]; exact List.mem_cons_self _ _, t, rfl⟩
    · obtain ⟨b', hb', t, rfl⟩ := ih j hj hop
      simp only [splitBlocks]
      cases hsb : splitBlocks rest with
      | nil => rw [hsb] at hb'; simp at hb'
      | cons b bs =>
        rw [hsb] at hb'
        rcases List.mem_cons.mp hb' with rfl | hbs
        · have hsw : startsWithJumpdest (j :: t) = true := by
            simp [startsWithJumpdest, hop]
          simp only [hsw, Bool.or_true, if_true]
          exact ⟨j :: t, by simp, t, rfl⟩
        · by_cases hc : (isTermOp i.opcode || startsWithJumpdest b) = true
          · simp only [hc, if_true]
            exact ⟨j :: t, by simp [List.mem_cons_of_mem, hbs], t, rfl⟩
          · simp only [Bool.not_eq_true] at hc
            simp only [hc, Bool.false_eq_true, if_false]
            exact ⟨j :: t, by simp [List.mem_cons_of_mem, hbs], t, rfl⟩

/-- Pairwise order on a flattened partition transfers to the block starts. -/
theorem pairwise_blockStart_of_flatten :
    ∀ (L : List (List Instruction)),
      L.flatten.Pairwise (fun a b => a.program_counter < b.program_counter) →
      (∀ b ∈ L, b ≠ []) →
      L.Pairwise (fun b1 b2 => blockStart b1 < blockStart b2) := by
  intro L
  induction L with
  | nil => intro _ _; exact List.Pairwise.nil
  | cons b L ih =>
    intro hflat hne
    simp only [List.flatten_cons] at hflat
    rw [List.pairwise_append] at hflat
    obtain ⟨hb, hL, hcross⟩ := hflat
    refine List.Pairwise.cons ?_ (ih hL fun x hx => hne x (List.mem_cons_of_mem b hx))
    intro b2 hb2
    cases hbshape : b with
    | nil => exact absurd hbshape (hne b (List.mem_cons_self b L))
    | cons x t =>
      cases hb2shape : b2 with
      | nil => exact absurd hb2shape (hne b2 (List.mem_cons_of_mem b hb2))
      | cons y t2 =>
        have hy : y ∈ L.flatten := by
          refine List.mem_flatten.mpr ⟨b2, hb2, ?_⟩
          rw [hb2shape]; exact List.mem_cons_self _ _
        have := hcross x (by rw [hbshape]; exact List.mem_cons_self _ _) y hy
        simpa [blockStart] using this

/-! ### Exit edges and block execution (spec §3, §4.2, §4.3) -/

/-- Modelled from the spec (§3): the exit edges of a basic block. -/
inductive Edge
  | fallthrough (pc : Nat)
  | jumpTo (pc : Nat)
  | jumpIf (pc : Nat) (cond : Expr)
  | unresolved
  | halt
  | revert
deriving DecidableEq

/-- Modelled from the spec (§4.2, §4.3): the analysis status of a block —
analysed normally, or a terminal malformed node (block-local stack
underflow/overflow), or never reached by the work-list pass. -/
inductive BlockStatus
  | normalB
  | malformedB
  | unreachedB
deriving DecidableEq

/-- Result of symbolically executing one basic block: its status, exit
stack state, and exit edges. -/
structure BlockRes where
  status : BlockStatus
  exit : SStack
  edges : List Edge
deriving DecidableEq

/-- The fallthrough edge past the end of a block, or a halt when the block
ends at bytecode end. -/
def fallEdge : Option Nat → List Edge
  | some n => [Edge.fallthrough n]
  | none => [Edge.halt]

/-- The constant value of an expression, when it is a constant. -/
def constOf : Expr → Option Nat
  | Expr.const c => some c
  | _ => none

/-- Modelled from the spec (§4.2): effect of a terminator opcode on the
stack state reaching it, and the exit edges it produces.  A jump whose
popped destination folds to a constant that is a valid jump-destination
program counter is resolved; otherwise the edge is `unresolved` and still
recorded.  Popping from an empty stack makes the block a terminal malformed
node. -/
def termEdges (jds : List Nat) (nextPc : Option Nat) (op : Nat) :
    SStack → BlockRes
  | SStack.unknown =>
    if op = 0x56 then ⟨BlockStatus.normalB, SStack.unknown, [Edge.unresolved]⟩
    else if op = 0x57 then
      ⟨BlockStatus.normalB, SStack.unknown, Edge.unresolved :: fallEdge nextPc⟩
    else if op = 0x00 ∨ op = 0xf3 ∨ op = 0xff then
      ⟨BlockStatus.normalB, SStack.unknown, [Edge.halt]⟩
    else ⟨BlockStatus.normalB, SStack.unknown, [Edge.revert]⟩
  | SStack.stack s =>
    if op = 0x56 then
      match s with
      | [] => ⟨BlockStatus.malformedB, SStack.unknown, []⟩
      | d :: s2 =>
        match constOf d with
        | some c =>
          if c ∈ jds then ⟨BlockStatus.normalB, SStack.stack s2, [Edge.jumpTo c]⟩
          else ⟨BlockStatus.normalB, SStack.stack s2, [Edge.unresolved]⟩
        | none => ⟨BlockStatus.normalB, SStack.stack s2, [Edge.unresolved]⟩
    else if op = 0x57 then
      match s with
      | d :: cond :: s2 =>
        (match constOf d with
        | some c =>
          if c ∈ jds then
            ⟨BlockStatus.normalB, SStack.stack s2,
              Edge.jumpIf c cond :: fallEdge nextPc⟩
          else
            ⟨BlockStatus.normalB, SStack.stack s2,
              Edge.unresolved :: fallEdge nextPc⟩
        | none =>
          ⟨BlockStatus.normalB, SStack.stack s2,
            Edge.unresolved :: fallEdge nextPc⟩)
      | _ => ⟨BlockStatus.malformedB, SStack.unknown, []⟩
    else if op = 0x00 then ⟨BlockStatus.normalB, SStack.stack s, [Edge.halt]⟩
    else if op = 0xf3 ∨ op = 0xfd then
      match s with
      | _ :: _ :: s2 =>
        ⟨BlockStatus.normalB, SStack.stack s2,
          [if op = 0xf3 then Edge.halt else Edge.revert]⟩
      | _ => ⟨BlockStatus.malformedB, SStack.unknown, []⟩
    else if op = 0xff then
      match s with
      | _ :: s2 => ⟨BlockStatus.normalB, SStack.stack s2, [Edge.halt]⟩
      | [] => ⟨BlockStatus.malformedB, SStack.unknown, []⟩
    else ⟨BlockStatus.normalB, SStack.stack s, [Edge.revert]⟩

/-- Opcode of the last instruction of a block (the candidate terminator). -/
def lastOpcode (b : List Instruction) : Nat :=
  match b.getLast? with
  | some i => i.opcode
  | none => 0

/-- Size in bytes of an instruction (opcode plus operand). -/
def instrSize (i : Instruction) : Nat := 1 + (i.operand.getD []).length

/-- Program counter one past the end of a block. -/
def blockEndPc (b : List Instruction) : Nat :=
  match b.getLast? with
  | some i => i.program_counter + instrSize i
  | none => 0

/-- The fallthrough target of a block, when a block of the partition starts
exactly at its end. -/
def nextPcOpt (blocks : List (List Instruction)) (b : List Instruction) :
    Option Nat :=
  let e := blockEndPc b
  if blocks.any fun b2 => decide (blockStart b2 = e) then some e else none

/-- Modelled from the spec (§4.2, §4.3): symbolic execution of one basic
block from an incoming abstract stack state — the body executes under the
stack machine, the terminator produces the exit edges; any block-local
failure yields a terminal malformed node instead of aborting the
analysis. -/
def execBlock (jds : List Nat) (nextPc : Option Nat) (entry : SStack)
    (b : List Instruction) : BlockRes :=
  match entry with
  | SStack.unknown =>
    if isTermOp (lastOpcode b) then
      termEdges jds nextPc (lastOpcode b) SStack.unknown
    else ⟨BlockStatus.normalB, SStack.unknown, fallEdge nextPc⟩
  | SStack.stack s =>
    if isTermOp (lastOpcode b) then
      match execList s b.dropLast with
      | none => ⟨BlockStatus.malformedB, SStack.unknown, []⟩
      | some s1 => termEdges jds nextPc (lastOpcode b) (SStack.stack s1)
    else
      match execList s b with
      | none => ⟨BlockStatus.malformedB, SStack.unknown, []⟩
      | some s1 => ⟨BlockStatus.normalB, SStack.stack s1, fallEdge nextPc⟩

/-- Successor work-list entries contributed by a block's exit edges: every
fallthrough or resolved jump target, paired with the block's exit state. -/
def succEntries (r : BlockRes) : List (Nat × SStack) :=
  r.edges.filterMap fun e =>
    match e with
    | Edge.fallthrough n => some (n, r.exit)
    | Edge.jumpTo c => some (c, r.exit)
    | Edge.jumpIf c _ => some (c, r.exit)
    | _ => none

/-! ### The work-list fixed point (spec §4.3) -/

/-- Modelled from the spec (§4.3): the mutable state of the work-list
fixed-point — the pending (program counter, incoming stack state) entries
and the per-program-counter visited states. -/
structure BState where
  worklist : List (Nat × SStack)
  visited : List (Nat × SStack)
deriving DecidableEq

/-- Look up the stored state of a program counter. -/
def lookupState : List (Nat × SStack) → Nat → Option SStack
  | [], _ => none
  | (k, v) :: rest, pc => if k = pc then some v else lookupState rest pc

/-- Replace the stored state of a program counter (first occurrence). -/
def updateFirst : List (Nat × SStack) → Nat → SStack → List (Nat × SStack)
  | [], _, _ => []
  | (k, v) :: rest, pc, m =>
    if k = pc then (pc, m) :: rest else (k, v) :: updateFirst rest pc m

/-- Modelled from the spec (§4.3): one work-list step.  Pop an entry; an
unvisited program counter is recorded and its block's successors are
enqueued; a visited one is merged — an unchanged merge is dropped, a
changed (widened) merge is stored and its successors re-enqueued. -/
def step (blocks : List (List Instruction)) (jds : List Nat) (st : BState) :
    BState :=
  match st.worklist with
  | [] => st
  | (pc, s) :: rest =>
    match blocks.find? (fun b => decide (blockStart b = pc)) with
    | none => ⟨rest, st.visited⟩
    | some b =>
      match lookupState st.visited pc with
      | none =>
        let r := execBlock jds (nextPcOpt blocks b) s b
        ⟨succEntries r ++ rest, (pc, s) :: st.visited⟩
      | some s0 =>
        let m := mergeStack s0 s
        if m = s0 then ⟨rest, st.visited⟩
        else
          let r := execBlock jds (nextPcOpt blocks b) m b
          ⟨succEntries r ++ rest, updateFirst st.visited pc m⟩

/-- Fuel-driven iteration of the work-list step (structural, hence
kernel-computable). -/
def runWorklist (blocks : List (List Instruction)) (jds : List Nat) :
    Nat → BState → BState
  | 0, st => st
  | n + 1, st =>
    match st.worklist with
    | [] => st
    | _ :: _ => runWorklist blocks jds n (step blocks jds st)

/-- Number of block leaders not yet visited. -/
def unvisitedCount (blocks : List (List Instruction))
    (visited : List (Nat × SStack)) : Nat :=
  ((blocks.map blockStart).filter fun pc => (lookupState visited pc).isNone).length

/-- Total widening potential of the visited map. -/
def potSum (visited : List (Nat × SStack)) : Nat :=
  (visited.map fun p => pot p.2).sum

/-- Modelled from the spec (§4.3): the termination measure of the work-list
pass — lexicographic in (unvisited leaders, total widening potential,
pending entries), collapsed into one natural number using the bounds on
stack depth and on the number of successors per block. -/
def bMeasure (blocks : List (List Instruction)) (st : BState) : Nat :=
  4000 * unvisitedCount blocks st.visited + 3 * potSum st.visited +
    st.worklist.length

/-- All stack states tracked by the builder stay within the bounded
depth. -/
def stacksBounded (st : BState) : Prop :=
  (∀ p ∈ st.worklist, sLen p.2 ≤ stackCap) ∧
    (∀ p ∈ st.visited, sLen p.2 ≤ stackCap)

/-! ### Termination of the work-list pass (spec §4.3) -/

/-- Filtering with a pointwise-stronger predicate yields at most as many
elements. -/
theorem length_filter_le_of_imp {α : Type} (p q : α → Bool) :
    ∀ (l : List α), (∀ x ∈ l, q x = true → p x = true) →
      (l.filter q).length ≤ (l.filter p).length := by
  intro l
  induction l with
  | nil => intro _; simp
  | cons a l ih =>
    intro h
    have htail := ih fun x hx => h x (List.mem_cons_of_mem a hx)
    cases hqa : q a with
    | true =>
      have hpa := h a (List.mem_cons_self a l) hqa
      simp only [List.filter, hqa, hpa, List.length_cons]
      omega
    | false =>
      cases hpa : p a with
      | true => simp only [List.filter, hqa, hpa, List.length_cons]; omega
      | false => simp only [List.filter, hqa, hpa]; omega

/-- Filtering with a pointwise-stronger predicate that loses at least one
element yields strictly fewer elements. -/
theorem length_filter_lt_of_witness {α : Type} (p q : α → Bool) :
    ∀ (l : List α), (∀ x ∈ l, q x = true → p x = true) →
      ∀ x ∈ l, p x = true → q x = false →
        (l.filter q).length < (l.filter p).length := by
  intro l
  induction l with
  | nil => intro _ x hx; simp at hx
  | cons a l ih =>
    intro h x hx hpx hqx
    have htail_le := length_filter_le_of_imp p q l
      fun y hy => h y (List.mem_cons_of_mem a hy)
    rcases List.mem_cons.mp hx with rfl | hx
    · simp only [List.filter, hqx, hpx, List.length_cons]
      omega
    · have htail_lt := ih (fun y hy => h y (List.mem_cons_of_mem a hy)) x hx hpx hqx
      cases hqa : q a with
      | true =>
        have hpa := h a (List.mem_cons_self a l) hqa
        simp only [List.filter, hqa, hpa, List.length_cons]
        omega
      | false =>
        cases hpa : p a with
        | true => simp only [List.filter, hqa, hpa, List.length_cons]; omega
        | false => simp only [List.filter, hqa, hpa]; omega

/-- `updateFirst` does not change which keys are present. -/
theorem lookupState_updateFirst_isNone (pc : Nat) (m : SStack) :
    ∀ (v : List (Nat × SStack)) (x : Nat),
      (lookupState (updateFirst v pc m) x).isNone = (lookupState v x).isNone := by
  intro v
  induction v with
  | nil => intro x; rfl
  | cons kv rest ih =>
    intro x
    obtain ⟨k, val⟩ := kv
    by_cases hk : k = pc
    · subst hk
      simp only [updateFirst, if_pos rfl]
      by_cases hx : k = x
      · simp [lookupState, if_pos hx]
      · simp [lookupState, if_neg hx]
    · simp only [updateFirst, if_neg hk]
      by_cases hx : k = x
      · simp [lookupState, if_pos hx]
      · simp [lookupState, if_neg hx, ih x]

/-- Replacing a stored state by one of strictly smaller potential strictly
decreases the total potential. -/
theorem potSum_updateFirst_lt (pc : Nat) (m s0 : SStack) (hlt : pot m < pot s0) :
    ∀ (v : List (Nat × SStack)), lookupState v pc = some s0 →
      potSum (updateFirst v pc m) < potSum v := by
  intro v
  induction v with
  | nil => intro h; simp [lookupState] at h
  | cons kv rest ih =>
    intro h
    obtain ⟨k, val⟩ := kv
    by_cases hk : k = pc
    · subst hk
      simp only [lookupState] at h
      rw [if_pos trivial] at h
      injection h with h
      subst h
      simp only [updateFirst, potSum]
      rw [if_pos trivial]
      simp only [List.map_cons, List.sum_cons]
      omega
    · simp only [lookupState, if_neg hk] at h
      simp only [updateFirst, if_neg hk, potSum, List.map_cons, List.sum_cons]
      have := ih h
      simp only [potSum] at this
      omega

/-- Membership in an updated map comes from the new entry or the old map. -/
theorem mem_updateFirst (pc : Nat) (m : SStack) :
    ∀ (v : List (Nat × SStack)) (q : Nat × SStack), q ∈ updateFirst v pc m →
      q = (pc, m) ∨ q ∈ v := by
  intro v
  induction v with
  | nil => intro q hq; simp [updateFirst] at hq
  | cons kv rest ih =>
    intro q hq
    obtain ⟨k, val⟩ := kv
    by_cases hk : k = pc
    · subst hk
      simp only [updateFirst] at hq
      rw [if_pos trivial] at hq
      rcases List.mem_cons.mp hq with h | hq2
      · exact Or.inl h
      · exact Or.inr (List.mem_cons_of_mem _ hq2)
    · simp only [updateFirst] at hq
      rw [if_neg hk] at hq
      rcases List.mem_cons.mp hq with h | hq2
      · rw [h]; exact Or.inr (List.mem_cons_self _ _)
      · rcases ih q hq2 with h | h
        · exact Or.inl h
        · exact Or.inr (List.mem_cons_of_mem _ h)

/-- Marking an unvisited leader as visited strictly decreases the number of
unvisited leaders. -/
theorem unvisitedCount_cons_lt (blocks : List (List Instruction)) (pc : Nat)
    (s : SStack) (visited : List (Nat × SStack))
    (hmem : pc ∈ blocks.map blockStart) (hnone : lookupState visited pc = none) :
    unvisitedCount blocks ((pc, s) :: visited) < unvisitedCount blocks visited := by
  refine length_filter_lt_of_witness _ _ (blocks.map blockStart) ?_ pc hmem ?_ ?_
  · intro x _ hq
    simp only [lookupState] at hq
    by_cases hx : pc = x
    · simp [if_pos hx] at hq
    · simpa [if_neg hx] using hq
  · simp [hnone]
  · simp [lookupState]

/-- Updating a visited state does not change the number of unvisited
leaders. -/
theorem unvisitedCount_updateFirst (blocks : List (List Instruction)) (pc : Nat)
    (m : SStack) (visited : List (Nat × SStack)) :
    unvisitedCount blocks (updateFirst visited pc m) =
      unvisitedCount blocks visited := by
  unfold unvisitedCount
  congr 1
  apply List.filter_congr
  intro x _
  rw [lookupState_updateFirst_isNone]

/-! ### Shape lemmas for block execution -/

/-- The fallthrough edge set always has exactly one element. -/
theorem fallEdge_length (np : Option Nat) : (fallEdge np).length = 1 := by
  cases np <;> rfl

/-- Elements of the fallthrough edge set. -/
theorem fallEdge_mem {np : Option Nat} {e : Edge} (h : e ∈ fallEdge np) :
    (∃ n, e = Edge.fallthrough n) ∨ e = Edge.halt := by
  cases np with
  | none => simp [fallEdge] at h; right; exact h
  | some n => simp [fallEdge] at h; left; exact ⟨n, h⟩

/-- A terminator contributes at most two exit edges. -/
theorem termEdges_edges_length_le (jds : List Nat) (np : Option Nat) (op : Nat)
    (s : SStack) : (termEdges jds np op s).edges.length ≤ 2 := by
  cases s <;> simp only [termEdges] <;> repeat' split
  all_goals simp [fallEdge_length]

/-- A terminator only pops: the exit depth is at most the incoming depth. -/
theorem termEdges_exit_le (jds : List Nat) (np : Option Nat) (op : Nat)
    (s : SStack) : sLen (termEdges jds np op s).exit ≤ sLen s := by
  cases s <;> simp only [termEdges] <;> repeat' split
  all_goals simp_all [sLen]
  all_goals omega

/-- Every resolved jump edge a terminator emits targets a valid
jump-destination program counter. -/
theorem termEdges_jump_mem (jds : List Nat) (np : Option Nat) (op : Nat)
    (s : SStack) (c : Nat) :
    (Edge.jumpTo c ∈ (termEdges jds np op s).edges → c ∈ jds) ∧
      (∀ cond, Edge.jumpIf c cond ∈ (termEdges jds np op s).edges → c ∈ jds) := by
  cases s <;> simp only [termEdges] <;> repeat' split
  all_goals constructor
  all_goals intro h
  all_goals try (cases np <;> simp_all [fallEdge])

/-- A jump terminator always records a jump edge: resolved as
`jumpTo`/`jumpIf`, otherwise an explicit `unresolved` edge — never
dropped. -/
theorem termEdges_jump_retention (jds : List Nat) (np : Option Nat) (op : Nat)
    (s : SStack) (hop : op = 0x56 ∨ op = 0x57)
    (hst : (termEdges jds np op s).status = BlockStatus.normalB) :
    (∃ c, Edge.jumpTo c ∈ (termEdges jds np op s).edges) ∨
      (∃ c cond, Edge.jumpIf c cond ∈ (termEdges jds np op s).edges) ∨
      Edge.unresolved ∈ (termEdges jds np op s).edges := by
  rcases hop with rfl | rfl
  · cases s with
    | unknown =>
      right; right
      simp [termEdges]
    | stack l =>
      cases l with
      | nil => simp [termEdges] at hst
      | cons d s2 =>
        cases hc : constOf d with
        | some c =>
          by_cases hmem : c ∈ jds
          · left; exact ⟨c, by simp [termEdges, hc, hmem]⟩
          · right; right; simp [termEdges, hc, hmem]
        | none => right; right; simp [termEdges, hc]
  · cases s with
    | unknown =>
      right; right
      simp [termEdges]
    | stack l =>
      cases l with
      | nil => simp [termEdges] at hst
      | cons d l2 =>
        cases l2 with
        | nil => simp [termEdges] at hst
        | cons cnd s2 =>
          cases hc : constOf d with
          | some c =>
            by_cases hmem : c ∈ jds
            · right; left
              exact ⟨c, cnd, by simp [termEdges, hc, hmem]⟩
            · right; right; simp [termEdges, hc, hmem]
          | none => right; right; simp [termEdges, hc]

/-- A block contributes at most two exit edges. -/
theorem execBlock_edges_length_le (jds : List Nat) (np : Option Nat)
    (entry : SStack) (b : List Instruction) :
    (execBlock jds np entry b).edges.length ≤ 2 := by
  cases entry with
  | unknown =>
    simp only [execBlock]
    split_ifs
    · exact termEdges_edges_length_le _ _ _ _
    · simp [fallEdge_length]
  | stack s =>
    simp only [execBlock]
    split_ifs
    · cases hex : execList s b.dropLast with
      | none => simp
      | some s1 => exact termEdges_edges_length_le _ _ _ _
    · cases hex : execList s b with
      | none => simp
      | some s1 => simp [fallEdge_length]

/-- Block execution keeps the exit stack within the bounded depth. -/
theorem execBlock_exit_cap (jds : List Nat) (np : Option Nat) (entry : SStack)
    (b : List Instruction) (hcap : sLen entry ≤ stackCap) :
    sLen (execBlock jds np entry b).exit ≤ stackCap := by
  cases entry with
  | unknown =>
    simp only [execBlock]
    split_ifs
    · exact le_trans (termEdges_exit_le _ _ _ _) (by simp [sLen])
    · simp [sLen]
  | stack s =>
    simp only [execBlock]
    split_ifs
    · cases hex : execList s b.dropLast with
      | none => simp [sLen]
      | some s1 =>
        refine le_trans (termEdges_exit_le _ _ _ _) ?_
        simpa [sLen] using execList_cap b.dropLast s s1 hex (by simpa [sLen] using hcap)
    · cases hex : execList s b with
      | none => simp [sLen]
      | some s1 =>
        simpa [sLen] using execList_cap b s s1 hex (by simpa [sLen] using hcap)

/-- Every resolved jump edge of a block targets a valid jump-destination
program counter. -/
theorem execBlock_jump_mem (jds : List Nat) (np : Option Nat) (entry : SStack)
    (b : List Instruction) (c : Nat) :
    (Edge.jumpTo c ∈ (execBlock jds np entry b).edges → c ∈ jds) ∧
      (∀ cond, Edge.jumpIf c cond ∈ (execBlock jds np entry b).edges → c ∈ jds) := by
  cases entry with
  | unknown =>
    simp only [execBlock]
    split_ifs
    · exact termEdges_jump_mem _ _ _ _ _
    · constructor
      · intro h
        rcases fallEdge_mem h with ⟨n, hn⟩ | hn <;> simp at hn
      · intro cond h
        rcases fallEdge_mem h with ⟨n, hn⟩ | hn <;> simp at hn
  | stack s =>
    simp only [execBlock]
    split_ifs
    · cases hex : execList s b.dropLast with
      | none => constructor <;> simp
      | some s1 => exact termEdges_jump_mem _ _ _ _ _
    · cases hex : execList s b with
      | none => constructor <;> simp
      | some s1 =>
        constructor
        · intro h
          rcases fallEdge_mem h with ⟨n, hn⟩ | hn <;> simp at hn
        · intro cond h
          rcases fallEdge_mem h with ⟨n, hn⟩ | hn <;> simp at hn

/-- A block ending in a jump always records a jump edge — resolved or
explicitly `unresolved`, never dropped — unless the block itself is
malformed. -/
theorem execBlock_jump_retention (jds : List Nat) (np : Option Nat)
    (entry : SStack) (b : List Instruction)
    (hop : lastOpcode b = 0x56 ∨ lastOpcode b = 0x57)
    (hst : (execBlock jds np entry b).status = BlockStatus.normalB) :
    (∃ c, Edge.jumpTo c ∈ (execBlock jds np entry b).edges) ∨
      (∃ c cond, Edge.jumpIf c cond ∈ (execBlock jds np entry b).edges) ∨
      Edge.unresolved ∈ (execBlock jds np entry b).edges := by
  have hterm : isTermOp (lastOpcode b) = true := by
    rcases hop with h | h <;> rw [h] <;> decide
  cases entry with
  | unknown =>
    simp only [execBlock, hterm, if_true] at hst ⊢
    exact termEdges_jump_retention _ _ _ _ hop hst
  | stack s =>
    simp only [execBlock, hterm, if_true] at hst ⊢
    cases hex : execList s b.dropLast with
    | none => rw [hex] at hst; simp at hst
    | some s1 =>
      rw [hex] at hst
      exact termEdges_jump_retention _ _ _ _ hop hst

/-- There are at most two successor entries per processed block. -/
theorem succEntries_length_le (r : BlockRes) :
    (succEntries r).length ≤ r.edges.length :=
  List.length_filterMap_le _ _

/-- Every successor entry carries the block's exit state. -/
theorem succEntries_snd (r : BlockRes) (q : Nat × SStack)
    (hq : q ∈ succEntries r) : q.2 = r.exit := by
  simp only [succEntries, List.mem_filterMap] at hq
  obtain ⟨e, _, heq⟩ := hq
  cases e with
  | fallthrough n => injection heq with h; rw [← h]
  | jumpTo c => injection heq with h; rw [← h]
  | jumpIf c cond => injection heq with h; rw [← h]
  | unresolved => exact absurd heq (by simp)
  | halt => exact absurd heq (by simp)
  | revert => exact absurd heq (by simp)

/-- A successful lookup exhibits membership. -/
theorem lookupState_mem :
    ∀ (v : List (Nat × SStack)) (pc : Nat) (s0 : SStack),
      lookupState v pc = some s0 → (pc, s0) ∈ v := by
  intro v
  induction v with
  | nil => intro pc s0 h; simp [lookupState] at h
  | cons kv rest ih =>
    intro pc s0 h
    obtain ⟨k, val⟩ := kv
    by_cases hk : k = pc
    · subst hk
      simp only [lookupState] at h
      rw [if_pos trivial] at h
      injection h with h
      subst h
      exact List.mem_cons_self _ _
    · simp only [lookupState, if_neg hk] at h
      exact List.mem_cons_of_mem _ (ih pc s0 h)

/-- One work-list step keeps all tracked stacks within the bounded depth. -/
theorem step_preserves_bounded (blocks : List (List Instruction)) (jds : List Nat)
    (st : BState) (h : stacksBounded st) : stacksBounded (step blocks jds st) := by
  obtain ⟨wl, vis⟩ := st
  obtain ⟨hw, hv⟩ := h
  cases wl with
  | nil => exact ⟨hw, hv⟩
  | cons entry rest =>
    obtain ⟨pc, s⟩ := entry
    have hs : sLen s ≤ stackCap := hw (pc, s) (List.mem_cons_self _ _)
    have hwrest : ∀ p ∈ rest, sLen p.2 ≤ stackCap := fun p hp =>
      hw p (List.mem_cons_of_mem _ hp)
    simp only [step]
    cases hfind : blocks.find? (fun b => decide (blockStart b = pc)) with
    | none => exact ⟨hwrest, hv⟩
    | some b =>
      cases hlook : lookupState vis pc with
      | none =>
        refine ⟨?_, ?_⟩
        · intro q hq
          rcases List.mem_append.mp hq with hq | hq
          · rw [succEntries_snd _ q hq]
            exact execBlock_exit_cap _ _ _ _ hs
          · exact hwrest q hq
        · intro p hp
          rcases List.mem_cons.mp hp with rfl | hp
          · exact hs
          · exact hv p hp
      | some s0 =>
        have hs0 : sLen s0 ≤ stackCap := hv (pc, s0) (lookupState_mem vis pc s0 hlook)
        show stacksBounded
          (if mergeStack s0 s = s0 then (⟨rest, vis⟩ : BState)
           else ⟨succEntries (execBlock jds (nextPcOpt blocks b) (mergeStack s0 s) b) ++ rest,
             updateFirst vis pc (mergeStack s0 s)⟩)
        by_cases hm : mergeStack s0 s = s0
        · rw [if_pos hm]
          exact ⟨hwrest, hv⟩
        · rw [if_neg hm]
          have hmcap : sLen (mergeStack s0 s) ≤ stackCap :=
            le_trans (sLen_mergeStack s0 s) hs0
          refine ⟨?_, ?_⟩
          · intro q hq
            rcases List.mem_append.mp hq with hq | hq
            · rw [succEntries_snd _ q hq]
              exact execBlock_exit_cap _ _ _ _ hmcap
            · exact hwrest q hq
          · intro p hp
            rcases mem_updateFirst pc (mergeStack s0 s) vis p hp with rfl | hp
            · exact hmcap
            · exact hv p hp

/-- One work-list step on a non-empty work list strictly decreases the
termination measure: the merge operation is idempotent after at most one
widening per visited program counter, and the set of program counters is
finite (§4.3). -/
theorem step_measure_lt (blocks : List (List Instruction)) (jds : List Nat)
    (st : BState) (hne : st.worklist ≠ []) (hinv : stacksBounded st) :
    bMeasure blocks (step blocks jds st) < bMeasure blocks st := by
  obtain ⟨wl, vis⟩ := st
  obtain ⟨hw, hv⟩ := hinv
  cases wl with
  | nil => exact absurd rfl hne
  | cons entry rest =>
    obtain ⟨pc, s⟩ := entry
    have hs : sLen s ≤ stackCap := hw (pc, s) (List.mem_cons_self _ _)
    have hcap : stackCap = 1024 := rfl
    simp only [step]
    cases hfind : blocks.find? (fun b => decide (blockStart b = pc)) with
    | none =>
      show bMeasure blocks ⟨rest, vis⟩ < bMeasure blocks ⟨(pc, s) :: rest, vis⟩
      simp only [bMeasure, List.length_cons]
      omega
    | some b =>
      have hpcmem : pc ∈ blocks.map blockStart := by
        have hb := List.mem_of_find?_eq_some hfind
        have hp := List.find?_some hfind
        simp only [decide_eq_true_eq] at hp
        exact List.mem_map.mpr ⟨b, hb, hp⟩
      cases hlook : lookupState vis pc with
      | none =>
        show bMeasure blocks
            ⟨succEntries (execBlock jds (nextPcOpt blocks b) s b) ++ rest,
              (pc, s) :: vis⟩ <
          bMeasure blocks ⟨(pc, s) :: rest, vis⟩
        have hU := unvisitedCount_cons_lt blocks pc s vis hpcmem hlook
        have hpot : pot s ≤ 1 + sLen s := pot_le s
        have hsucc : (succEntries (execBlock jds (nextPcOpt blocks b) s b)).length ≤ 2 :=
          le_trans (succEntries_length_le _) (execBlock_edges_length_le _ _ _ _)
        simp only [bMeasure, potSum, List.map_cons, List.sum_cons,
          List.length_append, List.length_cons]
        simp only [potSum] at hU ⊢
        omega
      | some s0 =>
        show bMeasure blocks
            (if mergeStack s0 s = s0 then (⟨rest, vis⟩ : BState)
             else ⟨succEntries (execBlock jds (nextPcOpt blocks b) (mergeStack s0 s) b) ++ rest,
               updateFirst vis pc (mergeStack s0 s)⟩) <
          bMeasure blocks ⟨(pc, s) :: rest, vis⟩
        by_cases hm : mergeStack s0 s = s0
        · rw [if_pos hm]
          simp only [bMeasure, List.length_cons]
          omega
        · rw [if_neg hm]
          have hP := potSum_updateFirst_lt pc (mergeStack s0 s) s0
            (pot_mergeStack_lt s0 s hm) vis hlook
          have hU := unvisitedCount_updateFirst blocks pc (mergeStack s0 s) vis
          have hsucc :
              (succEntries (execBlock jds (nextPcOpt blocks b) (mergeStack s0 s) b)).length ≤ 2 :=
            le_trans (succEntries_length_le _) (execBlock_edges_length_le _ _ _ _)
          simp only [bMeasure, List.length_append, List.length_cons]
          omega

/-- A fuel budget of at least the measure suffices for the work-list pass to
reach its fixed point (empty work list). -/
theorem runWorklist_reaches :
    ∀ (n : Nat) (blocks : List (List Instruction)) (jds : List Nat) (st : BState),
      stacksBounded st → bMeasure blocks st ≤ n →
      (runWorklist blocks jds n st).worklist = [] := by
  intro n
  induction n with
  | zero =>
    intro blocks jds st _ hme
    have hlen : st.worklist.length = 0 := by
      simp only [bMeasure] at hme
      omega
    simp only [runWorklist]
    exact List.eq_nil_of_length_eq_zero hlen
  | succ n ih =>
    intro blocks jds st hinv hme
    cases hwl : st.worklist with
    | nil =>
      simp only [runWorklist, hwl]
    | cons e rest =>
      have hne : st.worklist ≠ [] := by rw [hwl]; simp
      have hlt := step_measure_lt blocks jds st hne hinv
      have hinv2 := step_preserves_bounded blocks jds st hinv
      simp only [runWorklist, hwl]
      exact ih blocks jds (step blocks jds st) hinv2 (by omega)

/-! ### The control-flow graph (spec §3, §4.3, §6) -/

/-- Modelled from the spec (§3): a node of the recovered control-flow
graph — a basic block keyed by its `start_pc`, with the incoming abstract
stack state found by the fixed point (`none` when the block was never
reached), its analysis status, and its exit edges. -/
structure CfgNode where
  start_pc : Nat
  instructions : List Instruction
  entry : Option SStack
  status : BlockStatus
  exit_edges : List Edge
deriving DecidableEq

/-- Modelled from the spec (§3, §4.3): the recovered control-flow graph —
nodes keyed by `start_pc`, plus the report list of malformed/unresolved
blocks (§4.3's builder output). -/
structure ControlFlowGraph where
  nodes : List CfgNode
  malformed_report : List Nat
deriving DecidableEq

/-- Build the node for one block of the partition from the final visited
states of the fixed point. -/
def mkNode (blocks : List (List Instruction)) (jds : List Nat)
    (visited : List (Nat × SStack)) (b : List Instruction) : CfgNode :=
  match lookupState visited (blockStart b) with
  | none => ⟨blockStart b, b, none, BlockStatus.unreachedB, []⟩
  | some s =>
    let r := execBlock jds (nextPcOpt blocks b) s b
    ⟨blockStart b, b, some s, r.status, r.edges⟩

/-- Modelled from the spec (§4.3): the work list is seeded with program
counter 0 and an empty stack. -/
def initState : BState := ⟨[(0, SStack.stack [])], []⟩

/-- The statically computed fuel budget for the work-list pass. -/
def builderFuel (blocks : List (List Instruction)) : Nat :=
  bMeasure blocks initState

/-- Whether a node belongs in the malformed/unresolved report list. -/
def needsReport (n : CfgNode) : Bool :=
  decide (n.status = BlockStatus.malformedB) ||
    decide (Edge.unresolved ∈ n.exit_edges)

/-- The final state of the work-list fixed point for a byte string. -/
def builderFixpoint (bs : List Nat) : BState :=
  let instrs := decodeFrom 0 bs
  let blocks := splitBlocks instrs
  runWorklist blocks (jumpdestsOf instrs) (builderFuel blocks) initState

/-- Modelled from the spec (§6, §4.3): `build_cfg` — decode, partition into
blocks, run the work-list fixed point, and assemble the graph with its
malformed/unresolved report. -/
def buildCfg (bs : List Nat) : ControlFlowGraph :=
  let instrs := decodeFrom 0 bs
  let blocks := splitBlocks instrs
  let jds := jumpdestsOf instrs
  let nodes := blocks.map (mkNode blocks jds (builderFixpoint bs).visited)
  ⟨nodes, (nodes.filter needsReport).map fun n => n.start_pc⟩

/-- The seed state has bounded stacks. -/
theorem initState_bounded : stacksBounded initState := by
  constructor
  · intro p hp
    simp only [initState, List.mem_singleton] at hp
    subst hp
    simp [sLen, stackCap]
  · intro p hp
    simp [initState] at hp

/-- **C3** The control-flow-graph builder terminates on every finite input
byte string, including bytecode with back-edge cycles: the work-list pass
empties its work list within the statically computed fuel budget, because
the set of program counters is finite and the join-point merge is idempotent
after at most one widening per visited pair (the measure `bMeasure` strictly
decreases at every step). -/
theorem cfg_builder_terminates (bs : List Nat) :
    (builderFixpoint bs).worklist = [] := by
  unfold builderFixpoint
  exact runWorklist_reaches _ _ _ _ initState_bounded (le_refl _)

/-! ### The block partition and jump-edge invariants (C5, C9) -/

/-- A node keeps exactly its block's instructions. -/
theorem mkNode_instructions (blocks : List (List Instruction)) (jds : List Nat)
    (visited : List (Nat × SStack)) (b : List Instruction) :
    (mkNode blocks jds visited b).instructions = b := by
  unfold mkNode
  cases lookupState visited (blockStart b) <;> rfl

/-- A node's `start_pc` is its block's start. -/
theorem mkNode_start (blocks : List (List Instruction)) (jds : List Nat)
    (visited : List (Nat × SStack)) (b : List Instruction) :
    (mkNode blocks jds visited b).start_pc = blockStart b := by
  unfold mkNode
  cases lookupState visited (blockStart b) <;> rfl

/-- **C5** The basic blocks of the built control-flow graph partition the
decoded instruction sequence: in node order the blocks' instruction lists
concatenate exactly to the decoded sequence (total cover, no gap, no
overlap), and the node order is strictly increasing `start_pc` order. -/
theorem cfg_blocks_partition (bs : List Nat) :
    ((buildCfg bs).nodes.map fun n => n.instructions).flatten = decodeFrom 0 bs ∧
      ((buildCfg bs).nodes.map fun n => n.start_pc).Pairwise (· < ·) := by
  have hnodes : (buildCfg bs).nodes =
      (splitBlocks (decodeFrom 0 bs)).map
        (mkNode (splitBlocks (decodeFrom 0 bs)) (jumpdestsOf (decodeFrom 0 bs))
          (builderFixpoint bs).visited) := rfl
  constructor
  · rw [hnodes, List.map_map]
    have hmap : ((splitBlocks (decodeFrom 0 bs)).map
        ((fun n => n.instructions) ∘
          mkNode (splitBlocks (decodeFrom 0 bs)) (jumpdestsOf (decodeFrom 0 bs))
            (builderFixpoint bs).visited)) = splitBlocks (decodeFrom 0 bs) := by
      have hcongr : ∀ b ∈ splitBlocks (decodeFrom 0 bs),
          ((fun n => n.instructions) ∘
            mkNode (splitBlocks (decodeFrom 0 bs)) (jumpdestsOf (decodeFrom 0 bs))
              (builderFixpoint bs).visited) b = id b := fun b _ =>
        mkNode_instructions _ _ _ b
      rw [List.map_congr_left hcongr, List.map_id]
    rw [hmap]
    exact splitBlocks_flatten _
  · rw [hnodes, List.map_map]
    have hpc : (decodeFrom 0 bs).Pairwise
        (fun a b => a.program_counter < b.program_counter) :=
      decodeAux_pc_pairwise bs.length 0 bs (le_refl _)
    have hjoin : (splitBlocks (decodeFrom 0 bs)).flatten.Pairwise
        (fun a b => a.program_counter < b.program_counter) := by
      rw [splitBlocks_flatten]; exact hpc
    have hblocks := pairwise_blockStart_of_flatten _ hjoin
      (splitBlocks_ne_nil (decodeFrom 0 bs))
    rw [List.pairwise_map]
    refine hblocks.imp ?_
    intro a b h
    simpa [Function.comp, mkNode_start] using h

/-- Jump-destination membership characterised over the decoded sequence. -/
theorem mem_jumpdestsOf {instrs : List Instruction} {c : Nat} :
    c ∈ jumpdestsOf instrs ↔
      ∃ i ∈ instrs, i.opcode = 0x5b ∧ i.program_counter = c := by
  simp only [jumpdestsOf, List.mem_filterMap]
  constructor
  · rintro ⟨i, hi, hif⟩
    by_cases h : i.opcode = 0x5b
    · rw [if_pos h] at hif
      injection hif with hif
      exact ⟨i, hi, h, hif⟩
    · rw [if_neg h] at hif
      exact absurd hif (by simp)
  · rintro ⟨i, hi, hop, hpc⟩
    exact ⟨i, hi, by rw [if_pos hop, hpc]⟩

/-- **C9** In every built control-flow graph, each statically resolved
`JumpTo`/`JumpIf` edge targets the `start_pc` of an existing node whose
block begins on a valid jump-destination marker; and a reached, well-formed
block ending in a jump always records its jump edge — resolved or as an
explicit `unresolved` edge — never dropped. -/
theorem cfg_jump_edges_sound (bs : List Nat) :
    ∀ n ∈ (buildCfg bs).nodes,
      (∀ c, (Edge.jumpTo c ∈ n.exit_edges ∨
          ∃ cond, Edge.jumpIf c cond ∈ n.exit_edges) →
        ∃ n2 ∈ (buildCfg bs).nodes, n2.start_pc = c ∧
          blockHeadOpcode n2.instructions = 0x5b) ∧
      ((lastOpcode n.instructions = 0x56 ∨ lastOpcode n.instructions = 0x57) →
        n.status = BlockStatus.normalB →
        (∃ c, Edge.jumpTo c ∈ n.exit_edges) ∨
          (∃ c cond, Edge.jumpIf c cond ∈ n.exit_edges) ∨
          Edge.unresolved ∈ n.exit_edges) := by
  intro n hn
  have hnodes : (buildCfg bs).nodes =
      (splitBlocks (decodeFrom 0 bs)).map
        (mkNode (splitBlocks (decodeFrom 0 bs)) (jumpdestsOf (decodeFrom 0 bs))
          (builderFixpoint bs).visited) := rfl
  rw [hnodes] at hn
  obtain ⟨b, hb, rfl⟩ := List.mem_map.mp hn
  constructor
  · intro c hc
    have hcjds : c ∈ jumpdestsOf (decodeFrom 0 bs) := by
      unfold mkNode at hc
      cases hlook : lookupState (builderFixpoint bs).visited (blockStart b) with
      | none => rw [hlook] at hc; rcases hc with hc | ⟨cond, hc⟩ <;> simp at hc
      | some s =>
        rw [hlook] at hc
        rcases hc with hc | ⟨cond, hc⟩
        · exact (execBlock_jump_mem _ _ _ _ c).1 hc
        · exact (execBlock_jump_mem _ _ _ _ c).2 cond hc
    obtain ⟨i, hi, hop, hpc⟩ := mem_jumpdestsOf.mp hcjds
    obtain ⟨b2, hb2, t, rfl⟩ := splitBlocks_jumpdest_leads _ i hi hop
    refine ⟨mkNode (splitBlocks (decodeFrom 0 bs)) (jumpdestsOf (decodeFrom 0 bs))
      (builderFixpoint bs).visited (i :: t), ?_, ?_, ?_⟩
    · rw [hnodes]
      exact List.mem_map_of_mem _ hb2
    · rw [mkNode_start]
      simpa [blockStart] using hpc
    · rw [mkNode_instructions]
      simpa [blockHeadOpcode] using hop
  · intro hop hst
    rw [mkNode_instructions] at hop
    unfold mkNode at hst ⊢
    cases hlook : lookupState (builderFixpoint bs).visited (blockStart b) with
    | none =>
      try rw [hlook] at hst
      simp at hst
    | some s =>
      try rw [hlook] at hst
      exact execBlock_jump_retention _ _ _ _ hop hst

/-! ### Decompiler (spec §4.4, §6)

Modelled from the spec: the decompiler is not in `src/`.  Its claim-relevant
contract (§4.4, §7) is that regions that cannot be structured — unresolved
edges, malformed blocks — are emitted as explicit fallback statements
referencing the raw program counter, never dropped or hidden; regions that
can be structured are rendered as structured statements.  The internal
loop/branch structuring and expression printing are abstracted into one
structured statement per well-formed region. -/

/-- Modelled from the spec (§4.4): one statement of the decompiled module —
either a structured region or the explicit goto-style fallback for a region
that cannot be structured. -/
inductive Stmt
  | structuredBlock (pc : Nat)
  | fallbackGoto (pc : Nat)
deriving DecidableEq

/-- Modelled from the spec (§6): the decompiled module (structured statement
tree; text layout is external). -/
structure DecompiledModule where
  stmts : List Stmt
deriving DecidableEq

/-- Whether a node must be emitted as an explicit fallback statement. -/
def needsFallback (n : CfgNode) : Bool :=
  decide (Edge.unresolved ∈ n.exit_edges) ||
    decide (n.status = BlockStatus.malformedB)

/-- Modelled from the spec (§6, §4.4): `decompile` — never fails; each
region of the graph renders as a structured statement or as an explicit
fallback statement. -/
def decompile (bs : List Nat) : DecompiledModule :=
  ⟨(buildCfg bs).nodes.map fun n =>
    if needsFallback n then Stmt.fallbackGoto n.start_pc
    else Stmt.structuredBlock n.start_pc⟩

/-- **C1** `disassemble`, `build_cfg` and `decompile` are total and return a
complete best-effort result on every input: the listing covers every decoded
instruction and carries the truncation marker exactly on the instructions
whose declared operand overruns the input; every malformed node appears in
the graph's explicit report list; and every unresolved or malformed region
yields an explicit fallback statement in the decompiled module — no error is
ever returned to the caller. -/
theorem pipeline_never_fails (bs : List Nat) :
    (disassemble bs).lines.length = (decodeFrom 0 bs).length ∧
      (∀ l ∈ (disassemble bs).lines,
        l.truncated = true ↔
          (isPushOp l.opcode = true ∧ bs.length < l.pc + 1 + pushBytes l.opcode)) ∧
      (∀ n ∈ (buildCfg bs).nodes, n.status = BlockStatus.malformedB →
        n.start_pc ∈ (buildCfg bs).malformed_report) ∧
      (∀ n ∈ (buildCfg bs).nodes,
        Edge.unresolved ∈ n.exit_edges ∨ n.status = BlockStatus.malformedB →
          Stmt.fallbackGoto n.start_pc ∈ (decompile bs).stmts) := by
  refine ⟨by simp [disassemble], ?_, ?_, ?_⟩
  · intro l hl
    simp only [disassemble, List.mem_map] at hl
    obtain ⟨i, hi, rfl⟩ := hl
    have hshape := decodeAux_shape bs.length 0 bs (le_refl _) i hi
    simp only [decide_eq_true_eq]
    by_cases hpush : isPushOp i.opcode = true
    · obtain ⟨o, ho, hlen⟩ := hshape.2.1 hpush
      have hpb := pushBytes_pos hpush
      rw [ho]
      simp only [Option.getD_some]
      rw [hlen]
      constructor
      · intro h
        refine ⟨hpush, ?_⟩
        omega
      · rintro ⟨_, h⟩
        omega
    · have hnone := hshape.2.2 (by simpa using hpush)
      have hz : pushBytes i.opcode = 0 := by
        simp only [isPushOp, decide_eq_true_eq] at hpush
        simp [pushBytes, hpush]
      rw [hnone, hz]
      simp [hpush]
  · intro n hn hst
    have : needsReport n = true := by
      simp [needsReport, hst]
    simp only [buildCfg, List.mem_map]
    refine ⟨n, ?_, rfl⟩
    rw [List.mem_filter]
    exact ⟨hn, this⟩
  · intro n hn hcond
    have : needsFallback n = true := by
      rcases hcond with h | h <;> simp [needsFallback, h]
    simp only [decompile, List.mem_map]
    exact ⟨n, hn, by rw [if_pos this]⟩

/-- Witness for C1: the truncated `PUSH1` input `[0x60]` is fully listed
with its marker set, and the lone-`JUMP` input `[0x56]` produces a malformed
node that is reported and rendered as a fallback statement. -/
theorem pipeline_never_fails_witness :
    (disassemble [0x60]).lines.length = (decodeFrom 0 [0x60]).length ∧
      (isPushOp 0x60 = true ∧ ([0x60] : List Nat).length < 0 + 1 + pushBytes 0x60) ∧
      (0 ∈ (buildCfg [0x56]).malformed_report) ∧
      Stmt.fallbackGoto 0 ∈ (decompile [0x56]).stmts := by
  have h60 := pipeline_never_fails [0x60]
  have h56 := pipeline_never_fails [0x56]
  refine ⟨h60.1, ?_, ?_, ?_⟩
  · exact (h60.2.1 ⟨0, 0x60, some [], true⟩ (by decide)).mp (by decide)
  · exact h56.2.2.1
      ⟨0, [⟨0, 0x56, none⟩], some (SStack.stack []), BlockStatus.malformedB, []⟩
      (by decide) (by decide)
  · exact h56.2.2.2
      ⟨0, [⟨0, 0x56, none⟩], some (SStack.stack []), BlockStatus.malformedB, []⟩
      (by decide) (by decide)

/-- **C7** `disassemble`, `build_cfg` and `decompile` are deterministic:
identical input bytes yield structurally identical results — the embedding
has no iteration-order dependence, all internal state being ordered
lists. -/
theorem pipeline_deterministic (b1 b2 : List Nat) (h : b1 = b2) :
    disassemble b1 = disassemble b2 ∧ buildCfg b1 = buildCfg b2 ∧
      decompile b1 = decompile b2 := by
  subst h
  exact ⟨rfl, rfl, rfl⟩

/-- Witness for C7 at the cyclic input `JUMPDEST; PUSH1 0x00; JUMP`. -/
theorem pipeline_deterministic_witness :
    disassemble [0x5b, 0x60, 0x00, 0x56] = disassemble [0x5b, 0x60, 0x00, 0x56] ∧
      buildCfg [0x5b, 0x60, 0x00, 0x56] = buildCfg [0x5b, 0x60, 0x00, 0x56] ∧
      decompile [0x5b, 0x60, 0x00, 0x56] = decompile [0x5b, 0x60, 0x00, 0x56] :=
  pipeline_deterministic [0x5b, 0x60, 0x00, 0x56] [0x5b, 0x60, 0x00, 0x56] rfl

/-! ### Calldata/argument decoder (spec §4.5, §6)

Modelled from the spec: the argument decoder is not in `src/`.  Per §4.5,
with a supplied signature it decodes positionally — elementary types read a
fixed 32-byte-aligned slot; dynamic types read a 32-byte offset pointer
relative to the start of the argument block, then length-prefixed data at
that offset — and fails with `MalformedEncoding` when any offset/length
falls outside the input bounds.  Without a signature it guesses per 32-byte
word and never fails.  The signature type covers the elementary types and
the dynamic bytes/string/array types; nested tuples and fixed arrays are
not exercised by any claim and are omitted.  (The bool pattern is tested
before the address pattern because the words 0 and 1 match both.) -/

/-- Modelled from the spec (§3): an argument type of an
`ArgumentSignature`. -/
inductive AbiType
  | uintT (n : Nat)
  | intT (n : Nat)
  | address
  | boolT
  | bytesF (n : Nat)
  | dynBytes
  | dynString
  | dynArray
deriving DecidableEq

/-- Whether a type is dynamic (offset-pointer plus length-prefixed data). -/
def isDynamicType : AbiType → Bool
  | AbiType.dynBytes => true
  | AbiType.dynString => true
  | AbiType.dynArray => true
  | _ => false

/-- Modelled from the spec (§4.5): a decoded argument value — a 256-bit
word for elementary types, a byte string for dynamic bytes/string, a word
sequence for a dynamic array. -/
inductive AbiValue
  | wordV (w : Nat)
  | bytesV (b : List Nat)
  | arrayV (ws : List Nat)
deriving DecidableEq

/-- Modelled from the spec (§9): the confidence tag distinguishing decoding
against a known signature from a heuristic best-effort guess. -/
inductive Confidence
  | fromSignature
  | heuristicGuess
deriving DecidableEq

/-- One decoded argument with its (supplied or guessed) type and
confidence. -/
structure DecodedArg where
  value : AbiValue
  vtype : AbiType
  conf : Confidence
deriving DecidableEq

/-- Modelled from the spec (§7): the only hard failure of the core —
an argument decode against a known signature that does not fit the bytes. -/
inductive DecodeErr
  | malformedEncoding
deriving DecidableEq

/-- The 256-bit word stored at a byte offset (big-endian 32-byte slot). -/
def wordAt (data : List Nat) (off : Nat) : Nat :=
  beBytesToNat ((data.drop off).take 32)

/-- Modelled from the spec (§4.5): decode one dynamic value whose offset
pointer has been read, failing when the length prefix or the data itself
falls outside the input bounds. -/
def decodeOneDyn (data : List Nat) (t : AbiType) (off : Nat) :
    Except DecodeErr AbiValue :=
  if off + 32 ≤ data.length then
    let len := wordAt data off
    match t with
    | AbiType.dynArray =>
      if off + 32 + 32 * len ≤ data.length then
        Except.ok (AbiValue.arrayV
          ((List.range len).map fun j => wordAt data (off + 32 + 32 * j)))
      else Except.error DecodeErr.malformedEncoding
    | _ =>
      if off + 32 + len ≤ data.length then
        Except.ok (AbiValue.bytesV ((data.drop (off + 32)).take len))
      else Except.error DecodeErr.malformedEncoding
  else Except.error DecodeErr.malformedEncoding

/-- Modelled from the spec (§4.5): positional decode against a supplied
signature, argument index by argument index. -/
def decodeSigFrom (data : List Nat) : List AbiType → Nat →
    Except DecodeErr (List DecodedArg)
  | [], _ => Except.ok []
  | t :: rest, i =>
    if 32 * i + 32 ≤ data.length then
      match (if isDynamicType t then decodeOneDyn data t (wordAt data (32 * i))
             else Except.ok (AbiValue.wordV (wordAt data (32 * i)))) with
      | Except.error e => Except.error e
      | Except.ok val =>
        match decodeSigFrom data rest (i + 1) with
        | Except.error e => Except.error e
        | Except.ok vals =>
          Except.ok (⟨val, t, Confidence.fromSignature⟩ :: vals)
    else Except.error DecodeErr.malformedEncoding

/-- Modelled from the spec (§4.5): the heuristic type guess for one 32-byte
word — bool pattern (value 0 or 1), address pattern (top 12 bytes zero),
otherwise a 256-bit unsigned integer. -/
def heuristicWordType (w : List Nat) : AbiType :=
  if beBytesToNat w ≤ 1 then AbiType.boolT
  else if (w.take 12).all fun b => decide (b = 0) then AbiType.address
  else AbiType.uintT 256

/-- Modelled from the spec (§6, §4.5): `decode_arguments` — positional
decode when a signature is supplied (the only hard-failure path of the
core), heuristic per-word inference otherwise (never fails, lower
confidence). -/
def decodeArguments (data : List Nat) (sig : Option (List AbiType)) :
    Except DecodeErr (List DecodedArg) :=
  match sig with
  | some ts => decodeSigFrom data ts 0
  | none =>
    Except.ok ((List.range ((data.length + 31) / 32)).map fun i =>
      let w := (data.drop (32 * i)).take 32
      ⟨AbiValue.wordV (beBytesToNat w), heuristicWordType w,
        Confidence.heuristicGuess⟩)

/-- The spec's byte-layout condition for one argument slot (§4.5): the
32-byte-aligned head slot lies inside the input, and for a dynamic type the
offset pointer, the length prefix and the pointed-to data lie inside the
input. -/
def argSlotOk (data : List Nat) (i : Nat) (t : AbiType) : Prop :=
  32 * i + 32 ≤ data.length ∧
    (isDynamicType t = true →
      wordAt data (32 * i) + 32 ≤ data.length ∧
        (t = AbiType.dynArray →
          wordAt data (32 * i) + 32 +
              32 * wordAt data (wordAt data (32 * i)) ≤ data.length) ∧
        (t ≠ AbiType.dynArray →
          wordAt data (32 * i) + 32 +
              wordAt data (wordAt data (32 * i)) ≤ data.length))

/-- The spec's satisfiability condition for a whole signature against a
byte layout (§4.5, §6): every argument slot is satisfiable. -/
def layoutSatisfiable (data : List Nat) : List AbiType → Nat → Prop
  | [], _ => True
  | t :: rest, i => argSlotOk data i t ∧ layoutSatisfiable data rest (i + 1)

/-- Characterisation of the dynamic-value decoder's failure: exactly the
out-of-bounds layouts. -/
theorem decodeOneDyn_error_iff (data : List Nat) (t : AbiType) (off : Nat)
    (hdyn : isDynamicType t = true) :
    (decodeOneDyn data t off = Except.error DecodeErr.malformedEncoding ↔
      ¬(off + 32 ≤ data.length ∧
        (t = AbiType.dynArray → off + 32 + 32 * wordAt data off ≤ data.length) ∧
        (t ≠ AbiType.dynArray → off + 32 + wordAt data off ≤ data.length))) := by
  by_cases h32 : off + 32 ≤ data.length
  · cases t with
    | dynBytes =>
      by_cases hb : off + 32 + wordAt data off ≤ data.length <;>
        simp [decodeOneDyn, h32, hb]
    | dynString =>
      by_cases hb : off + 32 + wordAt data off ≤ data.length <;>
        simp [decodeOneDyn, h32, hb]
    | dynArray =>
      by_cases hb : off + 32 + 32 * wordAt data off ≤ data.length <;>
        simp [decodeOneDyn, h32, hb]
    | uintT n => simp [isDynamicType] at hdyn
    | intT n => simp [isDynamicType] at hdyn
    | address => simp [isDynamicType] at hdyn
    | boolT => simp [isDynamicType] at hdyn
    | bytesF n => simp [isDynamicType] at hdyn
  · simp [decodeOneDyn, h32]

/-- The positional decoder fails exactly on unsatisfiable layouts. -/
theorem decodeSigFrom_error_iff (data : List Nat) :
    ∀ (ts : List AbiType) (i : Nat),
      (decodeSigFrom data ts i = Except.error DecodeErr.malformedEncoding ↔
        ¬ layoutSatisfiable data ts i) := by
  intro ts
  induction ts with
  | nil =>
    intro i
    simp [decodeSigFrom, layoutSatisfiable]
  | cons t rest ih =>
    intro i
    simp only [decodeSigFrom, layoutSatisfiable]
    by_cases hslot : 32 * i + 32 ≤ data.length
    · rw [if_pos hslot]
      by_cases hdyn : isDynamicType t = true
      · rw [if_pos hdyn]
        cases hone : decodeOneDyn data t (wordAt data (32 * i)) with
        | error e =>
          cases e
          have hbad := (decodeOneDyn_error_iff data t (wordAt data (32 * i)) hdyn).mp hone
          constructor
          · intro _ hcon
            exact hbad (hcon.1.2 hdyn)
          · intro _
            rfl
        | ok val =>
          cases hrec : decodeSigFrom data rest (i + 1) with
          | error e =>
            cases e
            constructor
            · intro _ hcon
              exact (ih (i + 1)).mp hrec hcon.2
            · intro _
              rfl
          | ok vals =>
            constructor
            · intro h
              exact absurd h (by simp)
            · intro hcon
              exfalso
              apply hcon
              constructor
              · refine ⟨hslot, fun _ => ?_⟩
                by_contra hnb
                have herr : decodeOneDyn data t (wordAt data (32 * i)) =
                    Except.error DecodeErr.malformedEncoding :=
                  (decodeOneDyn_error_iff data t _ hdyn).mpr hnb
                rw [hone] at herr
                cases herr
              · by_contra hns
                have herr := (ih (i + 1)).mpr hns
                rw [hrec] at herr
                cases herr
      · rw [if_neg hdyn]
        cases hrec : decodeSigFrom data rest (i + 1) with
        | error e =>
          cases e
          constructor
          · intro _ hcon
            exact (ih (i + 1)).mp hrec hcon.2
          · intro _
            rfl
        | ok vals =>
          constructor
          · intro h
            exact absurd h (by simp)
          · intro hcon
            exfalso
            apply hcon
            refine ⟨⟨hslot, fun hc => absurd hc hdyn⟩, ?_⟩
            by_contra hns
            have herr := (ih (i + 1)).mpr hns
            rw [hrec] at herr
            cases herr
    · rw [if_neg hslot]
      constructor
      · intro _ hcon
        exact hslot hcon.1.1
      · intro _
        rfl

/-- A satisfiable non-empty layout reaches at least to the end of its head
slots. -/
theorem layoutSatisfiable_length (data : List Nat) :
    ∀ (ts : List AbiType) (i : Nat), layoutSatisfiable data ts i → ts ≠ [] →
      32 * (i + ts.length) ≤ data.length := by
  intro ts
  induction ts with
  | nil => intro i _ hne; exact absurd rfl hne
  | cons t rest ih =>
    intro i hsat _
    by_cases hrest : rest = []
    · subst hrest
      have := hsat.1.1
      simp only [List.length_cons, List.length_nil]
      omega
    · have hr := ih (i + 1) hsat.2 hrest
      simp only [List.length_cons] at hr ⊢
      omega

/-- **C2** `decode_arguments` with a supplied signature fails with
`MalformedEncoding` exactly when the byte layout cannot satisfy the
signature; in particular it fails whenever the declared elementary-type
count times 32 exceeds the input length; and without a signature it never
fails, for every input byte string. -/
theorem decode_arguments_contract (data : List Nat) (ts : List AbiType) :
    (decodeArguments data (some ts) = Except.error DecodeErr.malformedEncoding ↔
      ¬ layoutSatisfiable data ts 0) ∧
      ((ts.filter fun t => !isDynamicType t).length * 32 > data.length →
        decodeArguments data (some ts) =
          Except.error DecodeErr.malformedEncoding) ∧
      ∃ vals, decodeArguments data none = Except.ok vals := by
  refine ⟨decodeSigFrom_error_iff data ts 0, ?_, ⟨_, rfl⟩⟩
  intro hcount
  rw [show decodeArguments data (some ts) = decodeSigFrom data ts 0 from rfl]
  rw [decodeSigFrom_error_iff data ts 0]
  intro hsat
  have hne : ts ≠ [] := by
    intro hnil
    rw [hnil] at hcount
    simp at hcount
  have hlen := layoutSatisfiable_length data ts 0 hsat hne
  have hfle : (ts.filter fun t => !isDynamicType t).length ≤ ts.length :=
    List.length_filter_le _ _
  omega

/-- Witness for C2: the signature `[uint256]` cannot be satisfied by the
empty byte string (1 elementary type × 32 > 0), and heuristic decoding of
the empty string succeeds. -/
theorem decode_arguments_contract_witness :
    decodeArguments [] (some [AbiType.uintT 256]) =
        Except.error DecodeErr.malformedEncoding ∧
      ∃ vals, decodeArguments [] none = Except.ok vals := by
  have h := decode_arguments_contract [] [AbiType.uintT 256]
  exact ⟨h.2.1 (by decide), h.2.2⟩

/-! ### Argument encoder and the round-trip property (C8)

Modelled from the spec (§4.5): the reference encoding that the positional
decoder inverts — elementary values occupy one 32-byte head slot; dynamic
values occupy an offset-pointer head slot (relative to the start of the
argument block) plus length-prefixed data in the tail. -/

/-- Big-endian serialisation of a word into a fixed number of bytes. -/
def natToBeBytes : Nat → Nat → List Nat
  | 0, _ => []
  | k + 1, w => natToBeBytes k (w / 256) ++ [w % 256]

/-- The serialisation has exactly the requested width. -/
theorem natToBeBytes_length : ∀ (k w : Nat), (natToBeBytes k w).length = k := by
  intro k
  induction k with
  | zero => intro w; rfl
  | succ k ih =>
    intro w
    simp [natToBeBytes, ih]

/-- Appending one byte shifts the big-endian value. -/
theorem beBytesToNat_append_singleton (xs : List Nat) (b : Nat) :
    beBytesToNat (xs ++ [b]) = beBytesToNat xs * 256 + b := by
  simp [beBytesToNat, List.foldl_append]

/-- One digit-extraction step of base-256 modular arithmetic. -/
theorem mod_pow_step (w k : Nat) :
    w / 256 % 256 ^ k * 256 + w % 256 = w % 256 ^ (k + 1) := by
  have hqd := Nat.div_add_mod (w / 256) (256 ^ k)
  have hrlt : w % 256 < 256 := Nat.mod_lt _ (by norm_num)
  have hqm : w / 256 % 256 ^ k < 256 ^ k :=
    Nat.mod_lt _ (pow_pos (by norm_num) k)
  have hp : (256 : Nat) ^ (k + 1) = 256 ^ k * 256 := pow_succ 256 k
  have hlt : w / 256 % 256 ^ k * 256 + w % 256 < 256 ^ (k + 1) := by
    have h2 : (w / 256 % 256 ^ k + 1) * 256 ≤ 256 ^ k * 256 :=
      Nat.mul_le_mul_right 256 (Nat.succ_le_of_lt hqm)
    omega
  have hsplit : w = 256 ^ (k + 1) * (w / 256 / 256 ^ k) +
      (w / 256 % 256 ^ k * 256 + w % 256) := by
    calc w = 256 * (w / 256) + w % 256 := (Nat.div_add_mod w 256).symm
      _ = 256 * (256 ^ k * (w / 256 / 256 ^ k) + w / 256 % 256 ^ k) + w % 256 := by
          rw [hqd]
      _ = 256 ^ (k + 1) * (w / 256 / 256 ^ k) +
          (w / 256 % 256 ^ k * 256 + w % 256) := by
          rw [hp]; ring
  conv_rhs => rw [hsplit]
  rw [Nat.mul_add_mod]
  exact (Nat.mod_eq_of_lt hlt).symm

/-- Reading back a big-endian serialisation recovers the value modulo the
width. -/
theorem beBytesToNat_natToBeBytes :
    ∀ (k w : Nat), beBytesToNat (natToBeBytes k w) = w % 256 ^ k := by
  intro k
  induction k with
  | zero =>
    intro w
    simp [natToBeBytes, beBytesToNat, Nat.mod_one]
  | succ k ih =>
    intro w
    rw [show natToBeBytes (k + 1) w = natToBeBytes k (w / 256) ++ [w % 256] from rfl]
    rw [beBytesToNat_append_singleton, ih, mod_pow_step]

/-- A 32-byte serialisation round-trips every 256-bit word. -/
theorem beBytesToNat_word32 (w : Nat) (h : w < wordModulus) :
    beBytesToNat (natToBeBytes 32 w) = w := by
  rw [beBytesToNat_natToBeBytes]
  have h2 : (256 : Nat) ^ 32 = wordModulus := by
    rw [show (256 : Nat) = 2 ^ 8 by norm_num, ← pow_mul, wordModulus]
  rw [h2]
  exact Nat.mod_eq_of_lt h

/-- Modelled from the spec (§4.5): the tail payload of a dynamic value —
its length prefix followed by its data (raw bytes, or 32-byte words for a
dynamic array); elementary values contribute no tail. -/
def encPayload : AbiValue → List Nat
  | AbiValue.wordV _ => []
  | AbiValue.bytesV b => natToBeBytes 32 b.length ++ b
  | AbiValue.arrayV ws =>
    natToBeBytes 32 ws.length ++ (ws.map (natToBeBytes 32)).flatten

/-- Modelled from the spec (§4.5): the 32-byte head slot of one argument —
the value itself for an elementary type, the offset pointer (head length
plus tail offset) for a dynamic type. -/
def headBlock (headLen tailOff : Nat) (t : AbiType) (v : AbiValue) : List Nat :=
  if isDynamicType t then natToBeBytes 32 (headLen + tailOff)
  else
    match v with
    | AbiValue.wordV w => natToBeBytes 32 w
    | _ => natToBeBytes 32 0

/-- The head slots of an argument list, tracking the running tail offset. -/
def encodeHeads (headLen : Nat) : List (AbiType × AbiValue) → Nat →
    List (List Nat)
  | [], _ => []
  | (t, v) :: rest, tailOff =>
    headBlock headLen tailOff t v ::
      encodeHeads headLen rest
        (tailOff + if isDynamicType t then (encPayload v).length else 0)

/-- The concatenated tail payloads of an argument list. -/
def encodeTail : List (AbiType × AbiValue) → List Nat
  | [] => []
  | (t, v) :: rest =>
    (if isDynamicType t then encPayload v else []) ++ encodeTail rest

/-- Modelled from the spec (§4.5): the reference argument encoding — all
head slots, then all tail payloads. -/
def encodeArguments (args : List (AbiType × AbiValue)) : List Nat :=
  (encodeHeads (32 * args.length) args 0).flatten ++ encodeTail args

/-- A value is well typed for a type when its shape matches and every
contained word fits 256 bits. -/
def wellTypedArg : AbiType → AbiValue → Prop
  | AbiType.dynBytes, AbiValue.bytesV b => b.length < wordModulus
  | AbiType.dynString, AbiValue.bytesV b => b.length < wordModulus
  | AbiType.dynArray, AbiValue.arrayV ws =>
    ws.length < wordModulus ∧ ∀ w ∈ ws, w < wordModulus
  | AbiType.uintT _, AbiValue.wordV w => w < wordModulus
  | AbiType.intT _, AbiValue.wordV w => w < wordModulus
  | AbiType.address, AbiValue.wordV w => w < wordModulus
  | AbiType.boolT, AbiValue.wordV w => w < wordModulus
  | AbiType.bytesF _, AbiValue.wordV w => w < wordModulus
  | _, _ => False

/-- A head slot is always exactly 32 bytes. -/
theorem headBlock_length (headLen tailOff : Nat) (t : AbiType) (v : AbiValue) :
    (headBlock headLen tailOff t v).length = 32 := by
  unfold headBlock
  split_ifs
  · exact natToBeBytes_length 32 _
  · cases v <;> exact natToBeBytes_length 32 _

/-- A well-typed elementary value is a word below the modulus. -/
theorem wellTyped_elementary_shape {t : AbiType} {v : AbiValue}
    (hdynf : isDynamicType t = false) (hwt : wellTypedArg t v) :
    ∃ w, v = AbiValue.wordV w ∧ w < wordModulus := by
  cases t <;> cases v <;>
    simp_all [wellTypedArg, isDynamicType]

/-- A well-typed dynamic value is a bounded array for `dynArray`, a bounded
byte string for `dynBytes`/`dynString`. -/
theorem wellTyped_dynamic_shape {t : AbiType} {v : AbiValue}
    (hdyn : isDynamicType t = true) (hwt : wellTypedArg t v) :
    (t = AbiType.dynArray ∧ ∃ ws, v = AbiValue.arrayV ws ∧
        ws.length < wordModulus ∧ ∀ w ∈ ws, w < wordModulus) ∨
      ((t = AbiType.dynBytes ∨ t = AbiType.dynString) ∧
        ∃ b, v = AbiValue.bytesV b ∧ b.length < wordModulus) := by
  cases t <;> cases v <;> simp_all [wellTypedArg, isDynamicType]

/-- The flattened word serialisations of an array occupy 32 bytes per
element. -/
theorem flatten_word32_length (ws : List Nat) :
    ((ws.map (natToBeBytes 32)).flatten).length = 32 * ws.length := by
  induction ws with
  | nil => rfl
  | cons w ws ih =>
    simp only [List.map_cons, List.flatten_cons, List.length_append,
      natToBeBytes_length, ih, List.length_cons]
    ring

/-- Reading 32-byte words back out of a flattened serialisation recovers
the array. -/
theorem readWords (data : List Nat) :
    ∀ (ws : List Nat) (off2 : Nat) (suffix2 : List Nat),
      data.drop off2 = (ws.map (natToBeBytes 32)).flatten ++ suffix2 →
      (∀ w ∈ ws, w < wordModulus) →
      (List.range ws.length).map (fun j => wordAt data (off2 + 32 * j)) = ws := by
  intro ws
  induction ws with
  | nil => intro off2 suffix2 _ _; rfl
  | cons w ws ih =>
    intro off2 suffix2 h hall
    simp only [List.map_cons, List.flatten_cons, List.append_assoc] at h
    have hw32 : (natToBeBytes 32 w).length = 32 := natToBeBytes_length 32 w
    have h0 : wordAt data off2 = w := by
      unfold wordAt
      rw [h, List.take_left' hw32,
        beBytesToNat_word32 w (hall w (List.mem_cons_self _ _))]
    have hnext : data.drop (off2 + 32) =
        (ws.map (natToBeBytes 32)).flatten ++ suffix2 := by
      have hdd : data.drop (off2 + 32) = (data.drop off2).drop 32 := by
        rw [List.drop_drop]
      rw [hdd, h, List.drop_left' hw32]
    have htail := ih (off2 + 32) suffix2 hnext
      (fun x hx => hall x (List.mem_cons_of_mem _ hx))
    simp only [List.length_cons, List.range_succ_eq_map, List.map_cons,
      List.map_map, Nat.mul_zero, Nat.add_zero]
    rw [h0]
    refine congrArg _ ?_
    have hcong : List.map ((fun j => wordAt data (off2 + 32 * j)) ∘ Nat.succ)
        (List.range ws.length) =
        List.map (fun j => wordAt data (off2 + 32 + 32 * j))
          (List.range ws.length) := by
      apply List.map_congr_left
      intro j _
      show wordAt data (off2 + 32 * Nat.succ j) = wordAt data (off2 + 32 + 32 * j)
      have harith : off2 + 32 * Nat.succ j = off2 + 32 + 32 * j := by omega
      rw [harith]
    rw [hcong, htail]

/-- The heads region occupies exactly 32 bytes per argument. -/
theorem encodeHeads_flatten_length (H : Nat) :
    ∀ (args : List (AbiType × AbiValue)) (tOff : Nat),
      ((encodeHeads H args tOff).flatten).length = 32 * args.length := by
  intro args
  induction args with
  | nil => intro tOff; rfl
  | cons pv rest ih =>
    intro tOff
    obtain ⟨t, v⟩ := pv
    simp only [encodeHeads, List.flatten_cons, List.length_append,
      headBlock_length, ih, List.length_cons]
    omega

/-- The induction core of the round-trip: decoding a suffix of the encoded
argument list from its slot index recovers exactly the original values. -/
theorem decode_encode_go (data : List Nat) (H : Nat)
    (hfit : data.length < wordModulus) :
    ∀ (suffix : List (AbiType × AbiValue)) (i tOff : Nat) (after : List Nat),
      (∀ p ∈ suffix, wellTypedArg p.1 p.2) →
      data.drop (32 * i) = (encodeHeads H suffix tOff).flatten ++ after →
      data.drop (H + tOff) = encodeTail suffix →
      decodeSigFrom data (suffix.map Prod.fst) i =
        Except.ok (suffix.map fun p =>
          ⟨p.2, p.1, Confidence.fromSignature⟩) := by
  intro suffix
  induction suffix with
  | nil =>
    intro i tOff after _ _ _
    rfl
  | cons pv rest ih =>
    intro i tOff after hwt h1 h2
    obtain ⟨t, v⟩ := pv
    have hwthead : wellTypedArg t v := hwt (t, v) (List.mem_cons_self _ _)
    have hwtrest : ∀ p ∈ rest, wellTypedArg p.1 p.2 := fun p hp =>
      hwt p (List.mem_cons_of_mem _ hp)
    have hb32 : (headBlock H tOff t v).length = 32 := headBlock_length H tOff t v
    rw [show encodeHeads H ((t, v) :: rest) tOff =
        headBlock H tOff t v ::
          encodeHeads H rest
            (tOff + if isDynamicType t then (encPayload v).length else 0)
        from rfl,
      List.flatten_cons, List.append_assoc] at h1
    have hslot : 32 * i + 32 ≤ data.length := by
      have hlen := congrArg List.length h1
      simp only [List.length_drop, List.length_append, hb32] at hlen
      omega
    have hword : wordAt data (32 * i) = beBytesToNat (headBlock H tOff t v) := by
      unfold wordAt
      rw [h1, List.take_left' hb32]
    have hdrop1 : data.drop (32 * (i + 1)) =
        (encodeHeads H rest
          (tOff + if isDynamicType t then (encPayload v).length else 0)).flatten ++
          after := by
      have hdd : data.drop (32 * (i + 1)) = (data.drop (32 * i)).drop 32 := by
        have harith : 32 * (i + 1) = 32 * i + 32 := by ring
        rw [List.drop_drop, harith]
      rw [hdd, h1, List.drop_left' hb32]
    simp only [List.map_cons, decodeSigFrom]
    rw [if_pos hslot]
    by_cases hdyn : isDynamicType t = true
    · rw [if_pos hdyn]
      simp only [hdyn, eq_self_iff_true, if_true] at hdrop1
      have htail : data.drop (H + tOff) = encPayload v ++ encodeTail rest := by
        rw [h2]
        show encodeTail ((t, v) :: rest) = _
        simp [encodeTail, hdyn]
      rcases wellTyped_dynamic_shape hdyn hwthead with
        ⟨rfl, ws, rfl, hwslen, hwsall⟩ | ⟨ht, b, rfl, hblen⟩
      · -- dynamic array
        have h32len : (natToBeBytes 32 ws.length).length = 32 :=
          natToBeBytes_length 32 _
        have htail2 : data.drop (H + tOff) = natToBeBytes 32 ws.length ++
            ((ws.map (natToBeBytes 32)).flatten ++ encodeTail rest) := by
          rw [htail]
          simp [encPayload, List.append_assoc]
        have hflatlen := flatten_word32_length ws
        have hofflen : H + tOff + 32 ≤ data.length := by
          have hlen := congrArg List.length htail2
          simp only [List.length_drop, List.length_append, h32len] at hlen
          omega
        have hofffit : H + tOff < wordModulus := by omega
        have hheadword : wordAt data (32 * i) = H + tOff := by
          rw [hword]
          have hhb : headBlock H tOff AbiType.dynArray (AbiValue.arrayV ws) =
              natToBeBytes 32 (H + tOff) := by
            simp [headBlock, isDynamicType]
          rw [hhb, beBytesToNat_word32 _ hofffit]
        rw [hheadword]
        have hlenword : wordAt data (H + tOff) = ws.length := by
          unfold wordAt
          rw [htail2, List.take_left' h32len, beBytesToNat_word32 _ hwslen]
        have hbound : H + tOff + 32 + 32 * ws.length ≤ data.length := by
          have hlen := congrArg List.length htail2
          simp only [List.length_drop, List.length_append, h32len, hflatlen]
            at hlen
          omega
        have hdropc : data.drop (H + tOff + 32) =
            (ws.map (natToBeBytes 32)).flatten ++ encodeTail rest := by
          have hdd : data.drop (H + tOff + 32) = (data.drop (H + tOff)).drop 32 := by
            rw [List.drop_drop]
          rw [hdd, htail2, List.drop_left' h32len]
        have hone : decodeOneDyn data AbiType.dynArray (H + tOff) =
            Except.ok (AbiValue.arrayV ws) := by
          simp only [decodeOneDyn, hlenword]
          rw [if_pos hofflen, if_pos hbound]
          exact congrArg Except.ok (congrArg AbiValue.arrayV
            (readWords data ws (H + tOff + 32) (encodeTail rest) hdropc hwsall))
        rw [hone]
        have hpl : (encPayload (AbiValue.arrayV ws)).length = 32 + 32 * ws.length := by
          simp [encPayload, h32len, hflatlen]
        have h2n : data.drop (H + (tOff + (encPayload (AbiValue.arrayV ws)).length)) =
            encodeTail rest := by
          have harith : H + (tOff + (encPayload (AbiValue.arrayV ws)).length) =
              H + tOff + 32 + 32 * ws.length := by
            rw [hpl]; ring
          rw [harith]
          have hdd2 : data.drop (H + tOff + 32 + 32 * ws.length) =
              (data.drop (H + tOff + 32)).drop (32 * ws.length) := by
            rw [List.drop_drop]
          rw [hdd2, hdropc, List.drop_left' hflatlen]
        rw [ih (i + 1) (tOff + (encPayload (AbiValue.arrayV ws)).length) after
          hwtrest hdrop1 h2n]
      · -- dynamic bytes / string
        have h32len : (natToBeBytes 32 b.length).length = 32 :=
          natToBeBytes_length 32 _
        have htail2 : data.drop (H + tOff) = natToBeBytes 32 b.length ++
            (b ++ encodeTail rest) := by
          rw [htail]
          simp [encPayload, List.append_assoc]
        have hofflen : H + tOff + 32 ≤ data.length := by
          have hlen := congrArg List.length htail2
          simp only [List.length_drop, List.length_append, h32len] at hlen
          omega
        have hofffit : H + tOff < wordModulus := by omega
        have hheadword : wordAt data (32 * i) = H + tOff := by
          rw [hword]
          have hhb : headBlock H tOff t (AbiValue.bytesV b) =
              natToBeBytes 32 (H + tOff) := by
            simp [headBlock, hdyn]
          rw [hhb, beBytesToNat_word32 _ hofffit]
        rw [hheadword]
        have hlenword : wordAt data (H + tOff) = b.length := by
          unfold wordAt
          rw [htail2, List.take_left' h32len, beBytesToNat_word32 _ hblen]
        have hbound : H + tOff + 32 + b.length ≤ data.length := by
          have hlen := congrArg List.length htail2
          simp only [List.length_drop, List.length_append, h32len] at hlen
          omega
        have hdropc : data.drop (H + tOff + 32) = b ++ encodeTail rest := by
          have hdd : data.drop (H + tOff + 32) = (data.drop (H + tOff)).drop 32 := by
            rw [List.drop_drop]
          rw [hdd, htail2, List.drop_left' h32len]
        have hval : (data.drop (H + tOff + 32)).take b.length = b := by
          rw [hdropc]
          exact List.take_left' rfl
        have hone : decodeOneDyn data t (H + tOff) =
            Except.ok (AbiValue.bytesV b) := by
          rcases ht with rfl | rfl <;>
            (simp only [decodeOneDyn, hlenword]
             rw [if_pos hofflen, if_pos hbound]
             exact congrArg Except.ok (congrArg AbiValue.bytesV hval))
        rw [hone]
        have hpl : (encPayload (AbiValue.bytesV b)).length = 32 + b.length := by
          simp [encPayload, h32len]
        have h2n : data.drop (H + (tOff + (encPayload (AbiValue.bytesV b)).length)) =
            encodeTail rest := by
          have harith : H + (tOff + (encPayload (AbiValue.bytesV b)).length) =
              H + tOff + 32 + b.length := by
            rw [hpl]; ring
          rw [harith]
          have hdd2 : data.drop (H + tOff + 32 + b.length) =
              (data.drop (H + tOff + 32)).drop b.length := by
            rw [List.drop_drop]
          rw [hdd2, hdropc, List.drop_left' rfl]
        rw [ih (i + 1) (tOff + (encPayload (AbiValue.bytesV b)).length) after
          hwtrest hdrop1 h2n]
    · have hdynf : isDynamicType t = false := by
        cases hq : isDynamicType t
        · rfl
        · exact absurd hq hdyn
      rw [if_neg hdyn]
      simp only [hdynf, Bool.false_eq_true, if_false, Nat.add_zero] at hdrop1
      obtain ⟨w, rfl, hw⟩ := wellTyped_elementary_shape hdynf hwthead
      have hwordw : wordAt data (32 * i) = w := by
        rw [hword]
        have hhb : headBlock H tOff t (AbiValue.wordV w) = natToBeBytes 32 w := by
          simp [headBlock, hdynf]
        rw [hhb, beBytesToNat_word32 w hw]
      have h2n : data.drop (H + tOff) = encodeTail rest := by
        rw [h2]
        show encodeTail ((t, AbiValue.wordV w) :: rest) = _
        simp [encodeTail, hdynf]
      rw [hwordw, ih (i + 1) tOff after hwtrest hdrop1 h2n]

/-- **C8** Round-trip: for every well-typed argument list over elementary
types with at least one dynamic type (whose encoding fits in a 256-bit
address space, so the offset pointers are representable), encoding the
values and then calling `decode_arguments` with that signature returns
exactly the original values. -/
theorem decode_encode_roundtrip (args : List (AbiType × AbiValue))
    (hwt : ∀ p ∈ args, wellTypedArg p.1 p.2)
    (_hdyn : ∃ p ∈ args, isDynamicType p.1 = true)
    (hfit : (encodeArguments args).length < wordModulus) :
    decodeArguments (encodeArguments args) (some (args.map Prod.fst)) =
      Except.ok (args.map fun p => ⟨p.2, p.1, Confidence.fromSignature⟩) := by
  have h1 : (encodeArguments args).drop (32 * 0) =
      (encodeHeads (32 * args.length) args 0).flatten ++ encodeTail args := by
    rw [Nat.mul_zero, List.drop_zero]
    rfl
  have h2 : (encodeArguments args).drop (32 * args.length + 0) =
      encodeTail args := by
    rw [Nat.add_zero]
    show ((encodeHeads (32 * args.length) args 0).flatten ++
      encodeTail args).drop (32 * args.length) = _
    exact List.drop_left' (encodeHeads_flatten_length (32 * args.length) args 0)
  exact decode_encode_go (encodeArguments args) (32 * args.length) hfit args 0 0
    (encodeTail args) hwt h1 h2

/-- Witness for C8 at the signature `[uint256, bytes]` with sample values
`7` and `[1, 2, 3]`. -/
theorem decode_encode_roundtrip_witness :
    decodeArguments
        (encodeArguments
          [(AbiType.uintT 256, AbiValue.wordV 7),
            (AbiType.dynBytes, AbiValue.bytesV [1, 2, 3])])
        (some [AbiType.uintT 256, AbiType.dynBytes]) =
      Except.ok
        [⟨AbiValue.wordV 7, AbiType.uintT 256, Confidence.fromSignature⟩,
          ⟨AbiValue.bytesV [1, 2, 3], AbiType.dynBytes,
            Confidence.fromSignature⟩] := by
  have h := decode_encode_roundtrip
    [(AbiType.uintT 256, AbiValue.wordV 7),
      (AbiType.dynBytes, AbiValue.bytesV [1, 2, 3])]
    (by
      intro p hp
      rcases List.mem_cons.mp hp with rfl | hp2
      · show (7 : Nat) < wordModulus
        norm_num [wordModulus]
      · rcases List.mem_cons.mp hp2 with rfl | hp3
        · show (3 : Nat) < wordModulus
          norm_num [wordModulus]
        · simp at hp3)
    ⟨(AbiType.dynBytes, AbiValue.bytesV [1, 2, 3]), by simp, rfl⟩
    (by norm_num [encodeArguments, encodeHeads, encodeTail, encPayload,
      headBlock, natToBeBytes_length, wordModulus, isDynamicType])
  exact h

/-! ### CLI dispatch (embedded from src/heimdall/src/heimdall.rs)

The `main` function parses a subcommand and, for `Disassemble`, `Decode`
and `Trace`, replaces an empty user-supplied `rpc_url` with the
configuration's `rpc_url` before invoking the handler; `Config` is passed
through untouched.  The argument structs of `Disassemble` and `Decode` are
defined outside `src/`, so their other fields are modelled as one opaque
`rest` component; `TraceArgs` is embedded field-for-field from
`src/heimdall/src/trace/mod.rs`. -/

/-- Embedded from `heimdall_config::get_config`'s result as used by `main`:
only its `rpc_url` field is read. -/
structure Configuration where
  rpc_url : String

/-- `DisassemblerArgs` as seen by `main`: its `rpc_url` plus its remaining
fields (defined outside `src/`), opaque here. -/
structure DisassemblerArgs (α : Type) where
  rpc_url : String
  rest : α

/-- `DecodeArgs` as seen by `main`: its `rpc_url` plus its remaining
fields (defined outside `src/`), opaque here. -/
structure DecodeArgs (β : Type) where
  rpc_url : String
  rest : β

/-- Embedded from src/heimdall/src/trace/mod.rs: the `trace` subcommand's
arguments (`verbose` abstracts the verbosity level). -/
structure TraceArgs where
  transaction_hash : String
  verbose : Nat
  rpc_url : String
  default : Bool

/-- Embedded from src/heimdall/src/heimdall.rs: the subcommand enum. -/
inductive Subcommands (α β γ : Type)
  | disassembleCmd (cmd : DisassemblerArgs α)
  | decodeCmd (cmd : DecodeArgs β)
  | configCmd (cmd : γ)
  | traceCmd (cmd : TraceArgs)

/-- Which handler `main` invokes, with exactly the argument struct it
passes. -/
inductive Dispatched (α β γ : Type)
  | disassembled (cmd : DisassemblerArgs α)
  | decoded (cmd : DecodeArgs β)
  | configured (cmd : γ)
  | traced (cmd : TraceArgs)

/-- Embedded from src/heimdall/src/heimdall.rs lines 49–91: the body of
`main` after argument parsing — each branch matches `cmd.rpc_url` against
the empty string and substitutes the configuration's `rpc_url` in that case
only, then calls the handler with the (possibly updated) struct. -/
def mainDispatch {α β γ : Type} (configuration : Configuration) :
    Subcommands α β γ → Dispatched α β γ
  | Subcommands.disassembleCmd cmd =>
    if cmd.rpc_url = "" then
      Dispatched.disassembled { cmd with rpc_url := configuration.rpc_url }
    else Dispatched.disassembled cmd
  | Subcommands.decodeCmd cmd =>
    if cmd.rpc_url = "" then
      Dispatched.decoded { cmd with rpc_url := configuration.rpc_url }
    else Dispatched.decoded cmd
  | Subcommands.configCmd cmd => Dispatched.configured cmd
  | Subcommands.traceCmd cmd =>
    if cmd.rpc_url = "" then
      Dispatched.traced { cmd with rpc_url := configuration.rpc_url }
    else Dispatched.traced cmd

/-- **C4** For each of the `Disassemble`, `Decode` and `Trace` subcommands,
`main` replaces the parsed `rpc_url` with the configuration's `rpc_url`
exactly when the user-supplied `rpc_url` is the empty string, leaves a
non-empty `rpc_url` unchanged, and passes every other field of the argument
struct to the handler unmodified. -/
theorem main_dispatch_rpc_default {α β γ : Type} (configuration : Configuration) :
    (∀ a : DisassemblerArgs α,
      mainDispatch configuration (Subcommands.disassembleCmd (γ := γ) (β := β) a) =
        Dispatched.disassembled
          ⟨if a.rpc_url = "" then configuration.rpc_url else a.rpc_url, a.rest⟩) ∧
      (∀ d : DecodeArgs β,
        mainDispatch configuration (Subcommands.decodeCmd (α := α) (γ := γ) d) =
          Dispatched.decoded
            ⟨if d.rpc_url = "" then configuration.rpc_url else d.rpc_url, d.rest⟩) ∧
      (∀ t : TraceArgs,
        mainDispatch configuration (Subcommands.traceCmd (α := α) (β := β) (γ := γ) t) =
          Dispatched.traced
            ⟨t.transaction_hash, t.verbose,
              if t.rpc_url = "" then configuration.rpc_url else t.rpc_url,
              t.default⟩) := by
  refine ⟨?_, ?_, ?_⟩
  · intro a
    obtain ⟨url, rest⟩ := a
    by_cases h : url = "" <;> simp [mainDispatch, h]
  · intro d
    obtain ⟨url, rest⟩ := d
    by_cases h : url = "" <;> simp [mainDispatch, h]
  · intro t
    obtain ⟨hash, verb, url, dflt⟩ := t
    by_cases h : url = "" <;> simp [mainDispatch, h]

/-! ### Trace subcommand control flow (embedded from
src/heimdall/src/trace/mod.rs)

The `trace` function creates a logger, then tests the transaction hash
against `TRANSACTION_HASH_REGEX`.  On a match it builds a runtime, rejects
an empty RPC url, constructs the provider, parses the hash as `H256`,
fetches and prints the traces; on a non-match it logs an error and exits.
`TRANSACTION_HASH_REGEX` and the `H256` parser live outside `src/`, so they
are parameters of the model; `std::process::exit` ends the effect list. -/

/-- One observable effect of a `trace` run, in program order. -/
inductive TraceEffect
  | loggerCreated
  | regexChecked (ok : Bool)
  | runtimeBuilt
  | errorLogged (msg : String)
  | exited (code : Nat)
  | providerCreated (url : String)
  | hashParsed (ok : Bool)
  | traceFetched
  | tracePrinted
  | debugLogged
deriving DecidableEq

/-- Embedded from src/heimdall/src/trace/mod.rs lines 37–103: the effect
trace of `trace(args)`, parameterised by the externally defined regex
matcher, provider constructor and hash parser outcomes. -/
def traceRun (regexMatch providerOk parseOk : String → Bool) (fetchOk : Bool)
    (args : TraceArgs) : List TraceEffect :=
  TraceEffect.loggerCreated ::
    (if regexMatch args.transaction_hash then
      TraceEffect.regexChecked true :: TraceEffect.runtimeBuilt ::
        (if args.rpc_url.length ≤ 0 then
          [TraceEffect.errorLogged "tracing requires an RPC provider",
            TraceEffect.exited 1]
        else if providerOk args.rpc_url then
          TraceEffect.providerCreated args.rpc_url ::
            (if parseOk args.transaction_hash then
              TraceEffect.hashParsed true ::
                (if fetchOk then
                  [TraceEffect.traceFetched, TraceEffect.tracePrinted,
                    TraceEffect.debugLogged]
                else
                  [TraceEffect.errorLogged "failed to fetch traces",
                    TraceEffect.exited 1])
            else
              [TraceEffect.hashParsed false,
                TraceEffect.errorLogged "failed to parse transaction hash",
                TraceEffect.exited 1])
        else
          [TraceEffect.errorLogged "failed to connect to RPC provider",
            TraceEffect.exited 1])
    else
      [TraceEffect.regexChecked false,
        TraceEffect.errorLogged "invalid transaction hash",
        TraceEffect.exited 1])

/-- Whether an effect validates the transaction hash. -/
def isHashValidation : TraceEffect → Bool
  | TraceEffect.regexChecked _ => true
  | TraceEffect.hashParsed _ => true
  | _ => false

/-- **C10** For every transaction hash that does not match the hash regex,
`trace` terminates with an error before constructing any RPC provider or
issuing any network request; and on every input the regex check is the
first validation performed on the hash. -/
theorem trace_invalid_hash_early_exit
    (regexMatch providerOk parseOk : String → Bool) (fetchOk : Bool)
    (args : TraceArgs) :
    (regexMatch args.transaction_hash = false →
      traceRun regexMatch providerOk parseOk fetchOk args =
          [TraceEffect.loggerCreated, TraceEffect.regexChecked false,
            TraceEffect.errorLogged "invalid transaction hash",
            TraceEffect.exited 1] ∧
        (∀ u, TraceEffect.providerCreated u ∉
          traceRun regexMatch providerOk parseOk fetchOk args) ∧
        TraceEffect.traceFetched ∉
          traceRun regexMatch providerOk parseOk fetchOk args) ∧
      (traceRun regexMatch providerOk parseOk fetchOk args).find?
          isHashValidation =
        some (TraceEffect.regexChecked (regexMatch args.transaction_hash)) := by
  constructor
  · intro h
    refine ⟨by simp [traceRun, h], ?_, ?_⟩
    · intro u
      simp [traceRun, h]
    · simp [traceRun, h]
  · cases hre : regexMatch args.transaction_hash with
    | false => simp [traceRun, hre, List.find?, isHashValidation]
    | true => simp [traceRun, hre, List.find?, isHashValidation]

/-- Witness for C10 at a concrete non-matching hash. -/
theorem trace_invalid_hash_early_exit_witness :
    traceRun (fun _ => false) (fun _ => true) (fun _ => true) true
        ⟨"nothash", 0, "http://localhost", false⟩ =
        [TraceEffect.loggerCreated, TraceEffect.regexChecked false,
          TraceEffect.errorLogged "invalid transaction hash",
          TraceEffect.exited 1] ∧
      (∀ u, TraceEffect.providerCreated u ∉
        traceRun (fun _ => false) (fun _ => true) (fun _ => true) true
          ⟨"nothash", 0, "http://localhost", false⟩) ∧
      TraceEffect.traceFetched ∉
        traceRun (fun _ => false) (fun _ => true) (fun _ => true) true
          ⟨"nothash", 0, "http://localhost", false⟩ :=
  (trace_invalid_hash_early_exit (fun _ => false) (fun _ => true)
    (fun _ => true) true ⟨"nothash", 0, "http://localhost", false⟩).1 rfl

/-- Witness for C9 at the cyclic input `JUMPDEST; PUSH1 0x00; JUMP`, whose
single block carries a resolved `jumpTo 0` edge back to itself. -/
theorem cfg_jump_edges_sound_witness :
    ∃ n2 ∈ (buildCfg [0x5b, 0x60, 0x00, 0x56]).nodes, n2.start_pc = 0 ∧
      blockHeadOpcode n2.instructions = 0x5b := by
  have h := cfg_jump_edges_sound [0x5b, 0x60, 0x00, 0x56]
    ⟨0, [⟨0, 0x5b, none⟩, ⟨1, 0x60, some [0]⟩, ⟨3, 0x56, none⟩],
      some (SStack.stack []), BlockStatus.normalB, [Edge.jumpTo 0]⟩
    (by decide)
  exact h.1 0 (Or.inl (by decide))
